import Mathlib

/-!
Verification of the storage and synchronization engine of the
sugar-network repository (shallow embedding of the Python sources under
`site-packages/`).

Machine integers of the source are Python arbitrary-precision integers,
embedded as `Int`.  Python lists of `[start, stop]` ranges become
`List (Int × Option Int)` (`stop = none` is the unbounded upper end).
-/

namespace SugarNetwork

/-! ## `sugar_network/toolkit/collection.py` — `Sequence`

A `Sequence` is a "list of sorted and non-overlapping ranges"; an item is
a range `[start, stop]` where `stop = None` means unbounded above. -/

/-- One range of a `Sequence`: `(start, stop)`, `stop = none` unbounded. -/
abbrev SRange := Int × Option Int

/-- One iteration of `Sequence.__contains__`:
`value >= start and (end is None or value <= end)`. -/
def Sequence.inR (r : SRange) (value : Int) : Bool :=
  value ≥ r.1 && (match r.2 with | none => true | some e => value ≤ e)

/-- `Sequence.__contains__`: some range of the list admits `value`. -/
def Sequence.mem (seq : List SRange) (value : Int) : Bool :=
  seq.any fun r => Sequence.inR r value

/-- The update of `range_end_new` inside the second loop of
`Sequence._include`: `None` if `range_end` or the absorbed range's `end`
is `None`, otherwise `max(end, range_end)`. -/
def Sequence.mergeStop (stop range_end : Option Int) : Option Int :=
  match range_end, stop with
  | none, _ => none
  | _, none => none
  | some re, some e => some (max e re)

/-- The second `for` loop of `Sequence._include`: starting from the range
found by the first loop (`cur`), absorb every following range until one
starts beyond `range_end + 1` (`start - 1 > range_end` breaks the loop);
the absorbed region collapses to the single range
`[range_start_new, range_end_new]` computed from the last absorbed range. -/
def Sequence.includeExtend (range_start_new : Int) (range_end : Option Int) :
    SRange → List SRange → List SRange
  | cur, [] => [(range_start_new, Sequence.mergeStop cur.2 range_end)]
  | cur, (s, e) :: rest =>
    if (match range_end with | some re => decide (s - 1 > re) | none => false) then
      (range_start_new, Sequence.mergeStop cur.2 range_end) :: (s, e) :: rest
    else
      Sequence.includeExtend range_start_new range_end (s, e) rest

/-- `Sequence._include(range_start, range_end)` with `range_start` already
an integer (the `if range_start is None: range_start = 1` default is applied
by `Sequence.includePair`).  The first loop scans for either the insertion
point (`start - 1 > range_end`) or the first range that overlaps or touches
the new one (`(range_end is None or start - 1 <= range_end) and
(end is None or end + 1 >= range_start)`); on overlap the second loop
(`Sequence.includeExtend`) absorbs the following ranges. -/
def Sequence._include (seq : List SRange) (range_start : Int)
    (range_end : Option Int) : List SRange :=
  match seq with
  | [] => [(range_start, range_end)]
  | (s, e) :: rest =>
    if (match range_end with | some re => decide (s - 1 > re) | none => false) then
      (range_start, range_end) :: (s, e) :: rest
    else if (match range_end with | some re => decide (s - 1 ≤ re) | none => true) &&
        (match e with | some ev => decide (ev + 1 ≥ range_start) | none => true) then
      Sequence.includeExtend (min s range_start) range_end (s, e) rest
    else
      (s, e) :: Sequence._include rest range_start range_end

/-- `Sequence._include` on one `(start, end)` pair of an iterable argument:
`range_start = None` defaults to 1. -/
def Sequence.includePair (seq : List SRange) (p : Option Int × Option Int) :
    List SRange :=
  Sequence._include seq (p.1.getD 1) p.2

/-- `Sequence.include(start, end)` when `start` is an iterable of
`(start, end)` pairs: `_include` every pair in order. -/
def Sequence.includeSeq (seq : List SRange)
    (ranges : List (Option Int × Option Int)) : List SRange :=
  ranges.foldl Sequence.includePair seq

/-- `Sequence.include(start, end)` when `start` is a plain integer. -/
def Sequence.includeRange (seq : List SRange) (start : Int) (stop : Option Int) :
    List SRange :=
  Sequence._include seq start stop

/-- The `for` loop of `Sequence._exclude` up to its `break`: ranges whose
`end` is below `range_start` are kept (`continue`); the first range that
reaches `range_start` is rewritten (`end is None or end > range_end`: it
survives as `[range_end + 1, end]`, preceded by `[start, range_start - 1]`
when `start < range_start`), trimmed to `[start, range_start - 1]`, or
deleted.  The second component models the tail call
`self.exclude(end + 1, range_end)` performed when `end is not None` and
`end + 1 < range_end`: it is the new `range_start`, or `none` when the
loop finishes without that call. -/
def Sequence.excludeStep (range_start range_end : Int) :
    List SRange → List SRange × Option Int
  | [] => ([], none)
  | (s, e) :: rest =>
    match e with
    | some ev =>
      if ev < range_start then
        -- current interval is below the new one
        ((s, some ev) :: (Sequence.excludeStep range_start range_end rest).1,
         (Sequence.excludeStep range_start range_end rest).2)
      else
        let cont := if ev + 1 < range_end then some (ev + 1) else none
        if ev > range_end then
          -- current interval will exist after changing
          let upd := (range_end + 1, some ev) :: rest
          ((if s < range_start then (s, some (range_start - 1)) :: upd else upd),
           cont)
        else
          ((if s < range_start then (s, some (range_start - 1)) :: rest else rest),
           cont)
    | none =>
      -- `end is None`: the interval survives as `[range_end + 1, None]`;
      -- no recursive `exclude` (`end is not None` fails)
      let upd := (range_end + 1, (none : Option Int)) :: rest
      ((if s < range_start then (s, some (range_start - 1)) :: upd else upd),
       none)

/-- Variant bound of the recursion in `Sequence._exclude`: the restart
value returned by `Sequence.excludeStep` lies strictly between
`range_start` and `range_end` (it is `end + 1` for the processed range,
whose `end` is at least `range_start`, and the source only recurses when
`end + 1 < range_end`). -/
theorem Sequence.excludeStep_cont (range_start range_end : Int) :
    ∀ (seq l : List SRange) (k : Int),
      Sequence.excludeStep range_start range_end seq = (l, some k) →
      range_start < k ∧ k < range_end := by
  intro seq
  induction seq with
  | nil => intro l k h; simp [Sequence.excludeStep] at h
  | cons r rest ih =>
    intro l k h
    obtain ⟨s, e⟩ := r
    match e with
    | some ev =>
      by_cases hlt : ev < range_start
      · simp only [Sequence.excludeStep, if_pos hlt] at h
        have h2 : (Sequence.excludeStep range_start range_end rest).2 = some k :=
          congrArg Prod.snd h
        cases hrest : Sequence.excludeStep range_start range_end rest with
        | mk l' k' =>
          rw [hrest] at h2
          have h3 : k' = some k := h2
          exact ih l' k (by rw [hrest, h3])
      · simp only [Sequence.excludeStep, if_neg hlt] at h
        have h2 : (if ev + 1 < range_end then some (ev + 1) else (none : Option Int))
            = some k := by
          by_cases hgt : ev > range_end
          · rw [if_pos hgt] at h; exact congrArg Prod.snd h
          · rw [if_neg hgt] at h; exact congrArg Prod.snd h
        by_cases hc : ev + 1 < range_end
        · rw [if_pos hc] at h2
          injection h2 with h3
          omega
        · rw [if_neg hc] at h2
          exact absurd h2 (by simp)
    | none =>
      simp only [Sequence.excludeStep] at h
      exact absurd (congrArg Prod.snd h) (by simp)

/-- `Sequence._exclude(range_start, range_end)` with `range_start` already
an integer and the `enforce` guards (`range_end is not None`,
`0 < range_start <= range_end`) left to the theorems' hypotheses: one pass
of the loop, then the tail-recursive `self.exclude(end + 1, range_end)`
when the processed range demands it. -/
def Sequence._exclude (seq : List SRange) (range_start range_end : Int) :
    List SRange :=
  match h : Sequence.excludeStep range_start range_end seq with
  | (l, none) => l
  | (l, some k) => Sequence._exclude l k range_end
termination_by (range_end - range_start).toNat
decreasing_by
  have := Sequence.excludeStep_cont range_start range_end seq l k h
  omega

/-- `Sequence.exclude(start, end)` when `start` is a plain integer. -/
def Sequence.excludeRange (seq : List SRange) (start stop : Int) :
    List SRange :=
  Sequence._exclude seq start stop

/-- Unfolding equation of `Sequence._exclude` when the loop finishes
without restarting. -/
theorem Sequence._exclude_step_none (seq : List SRange) (rs re : Int)
    (l : List SRange) (h : Sequence.excludeStep rs re seq = (l, none)) :
    Sequence._exclude seq rs re = l := by
  rw [Sequence._exclude.eq_def]
  split
  next l' heq => rw [h] at heq; injection heq with h1 _; exact h1.symm
  next l' k' heq => rw [h] at heq; injection heq with _ h2; exact absurd h2.symm (by simp)

/-- Unfolding equation of `Sequence._exclude` when the loop restarts via
`self.exclude(end + 1, range_end)`. -/
theorem Sequence._exclude_step_some (seq : List SRange) (rs re : Int)
    (l : List SRange) (k : Int)
    (h : Sequence.excludeStep rs re seq = (l, some k)) :
    Sequence._exclude seq rs re = Sequence._exclude l k re := by
  rw [Sequence._exclude.eq_def]
  split
  next l' heq => rw [h] at heq; injection heq with _ h2; exact absurd h2 (by simp)
  next l' k' heq =>
    rw [h] at heq
    injection heq with h1 h2
    injection h2 with h3
    rw [h1, h3]

/-- Well-formedness invariant maintained by `Sequence` ("list of sorted
and non-overlapping ranges" over positive integers): starts are ≥ 1, every
bounded range has `start ≤ stop`, consecutive ranges keep a gap of at
least one missing value (`stop + 1 < next start`, since `_include` merges
touching ranges), and only the last range may be unbounded. -/
def Sequence.isCanon : List SRange → Bool
  | [] => true
  | [(s, e)] => 1 ≤ s && (match e with | none => true | some ev => s ≤ ev)
  | (s, e) :: (s₂, e₂) :: rest =>
    1 ≤ s &&
    (match e with
     | none => false
     | some ev => decide (s ≤ ev) && decide (ev + 1 < s₂)) &&
    Sequence.isCanon ((s₂, e₂) :: rest)

/-! ### Helper lemmas about `Sequence` -/

/-- Two booleans agreeing as propositions are equal. -/
theorem bool_eq_of_iff {a b : Bool} (h : a = true ↔ b = true) : a = b := by
  cases a <;> cases b <;> simp_all

@[simp]
theorem Sequence.inR_none (s x : Int) :
    Sequence.inR (s, none) x = decide (s ≤ x) := by
  simp [Sequence.inR]

@[simp]
theorem Sequence.inR_some (s e x : Int) :
    Sequence.inR (s, some e) x = (decide (s ≤ x) && decide (x ≤ e)) := by
  simp [Sequence.inR]

@[simp]
theorem Sequence.mem_nil (x : Int) : Sequence.mem [] x = false := rfl

@[simp]
theorem Sequence.mem_cons (r : SRange) (rest : List SRange) (x : Int) :
    Sequence.mem (r :: rest) x = (Sequence.inR r x || Sequence.mem rest x) := by
  simp [Sequence.mem]

theorem Sequence.isCanon_cons₂ (s : Int) (e : Option Int) (s₂ : Int)
    (e₂ : Option Int) (rest : List SRange) :
    Sequence.isCanon ((s, e) :: (s₂, e₂) :: rest) = true ↔
      1 ≤ s ∧ (∃ ev, e = some ev ∧ s ≤ ev ∧ ev + 1 < s₂) ∧
        Sequence.isCanon ((s₂, e₂) :: rest) = true := by
  cases e <;> simp [Sequence.isCanon] <;> tauto

theorem Sequence.isCanon_single (s : Int) (e : Option Int) :
    Sequence.isCanon [(s, e)] = true ↔
      1 ≤ s ∧ ∀ ev, e = some ev → s ≤ ev := by
  cases e <;> simp [Sequence.isCanon]

theorem Sequence.isCanon_tail (r : SRange) (rest : List SRange)
    (h : Sequence.isCanon (r :: rest) = true) :
    Sequence.isCanon rest = true := by
  obtain ⟨s, e⟩ := r
  match rest with
  | [] => rfl
  | (s₂, e₂) :: rest' => exact ((Sequence.isCanon_cons₂ _ _ _ _ _).mp h).2.2

/-- Members of a canonical sequence are bounded below by the head start. -/
theorem Sequence.mem_head_lb :
    ∀ (seq : List SRange) (r : SRange) (x : Int),
      Sequence.isCanon seq = true → seq.head? = some r →
      Sequence.mem seq x = true → r.1 ≤ x := by
  intro seq
  induction seq with
  | nil => intro r x _ h; simp at h
  | cons r₀ rest ih =>
    intro r x hc hh hm
    obtain ⟨s, e⟩ := r₀
    simp only [List.head?_cons, Option.some.injEq] at hh
    subst hh
    simp only [Sequence.mem_cons, Bool.or_eq_true] at hm
    rcases hm with hm | hm
    · cases e with
      | none => simp at hm; exact hm
      | some ev => simp at hm; exact hm.1
    · match rest, hm with
      | (s₂, e₂) :: rest', hm =>
        obtain ⟨h1, ⟨ev, he, hle, hgap⟩, hc'⟩ := (Sequence.isCanon_cons₂ _ _ _ _ _).mp hc
        have := ih (s₂, e₂) x hc' rfl hm
        simp only
        omega

/-- Semantics of the absorbing loop of `_include`: the produced list admits
exactly the values of `[m, b]`, of the current range and of the remaining
ranges. -/
theorem Sequence.includeExtend_mem (b m : Int) :
    ∀ (rest : List SRange) (cur : SRange) (x : Int),
      Sequence.isCanon (cur :: rest) = true →
      m ≤ cur.1 → cur.1 ≤ b + 1 →
      Sequence.mem (Sequence.includeExtend m (some b) cur rest) x =
        (Sequence.inR (m, some b) x || Sequence.inR cur x ||
          Sequence.mem rest x) := by
  intro rest
  induction rest with
  | nil =>
    intro cur x hc hm hb
    obtain ⟨cs, ce⟩ := cur
    apply bool_eq_of_iff
    cases ce with
    | none =>
      simp only [Sequence.includeExtend, Sequence.mergeStop, Sequence.mem_cons,
        Sequence.mem_nil, Sequence.inR_none, Sequence.inR_some, Bool.or_false,
        Bool.or_eq_true, Bool.and_eq_true, decide_eq_true_eq]
      simp only at hm hb
      omega
    | some ev =>
      have hle : cs ≤ ev := ((Sequence.isCanon_single _ _).mp hc).2 ev rfl
      simp only [Sequence.includeExtend, Sequence.mergeStop, Sequence.mem_cons,
        Sequence.mem_nil, Sequence.inR_some, Bool.or_false, Bool.or_eq_true,
        Bool.and_eq_true, decide_eq_true_eq]
      simp only at hm hb
      omega
  | cons r rest' ih =>
    intro cur x hc hm hb
    obtain ⟨cs, ce⟩ := cur
    obtain ⟨s, e⟩ := r
    obtain ⟨h1, ⟨ev, he, hle, hgap⟩, hc'⟩ := (Sequence.isCanon_cons₂ _ _ _ _ _).mp hc
    subst he
    simp only at hm hb
    by_cases hbrk : s - 1 > b
    · rw [show Sequence.includeExtend m (some b) (cs, some ev) ((s, e) :: rest') =
          (m, Sequence.mergeStop (some ev) (some b)) :: (s, e) :: rest' by
        simp [Sequence.includeExtend, hbrk]]
      apply bool_eq_of_iff
      by_cases hr : Sequence.mem rest' x = true <;>
        by_cases hs : Sequence.inR (s, e) x = true <;>
        simp only [Sequence.mergeStop, Sequence.mem_cons, Sequence.inR_some,
          hr, hs, Bool.or_true, Bool.true_or, Bool.or_false, Bool.false_or,
          Bool.or_eq_true, Bool.and_eq_true, decide_eq_true_eq] <;>
        omega
    · rw [show Sequence.includeExtend m (some b) (cs, some ev) ((s, e) :: rest') =
          Sequence.includeExtend m (some b) (s, e) rest' by
        simp [Sequence.includeExtend, hbrk]]
      rw [ih (s, e) x hc' (by omega) (by omega)]
      apply bool_eq_of_iff
      by_cases hr : Sequence.mem rest' x = true <;>
        by_cases hs : Sequence.inR (s, e) x = true <;>
        simp only [Sequence.mem_cons, Sequence.inR_some, hr, hs, Bool.or_true,
          Bool.true_or, Bool.or_false, Bool.false_or, Bool.or_eq_true,
          Bool.and_eq_true, decide_eq_true_eq] <;>
        omega

/-- Branch equation of `Sequence._include`: insertion before the first
range when `start - 1 > range_end`. -/
theorem Sequence._include_cons_insert {s : Int} {e : Option Int}
    {rest : List SRange} {a b : Int} (hbrk : s - 1 > b) :
    Sequence._include ((s, e) :: rest) a (some b) =
      (a, some b) :: (s, e) :: rest := by
  simp only [Sequence._include]
  rw [if_pos (decide_eq_true hbrk)]

/-- Branch equation of `Sequence._include`: the head range overlaps or
touches `[a, b]`, the absorbing loop runs. -/
theorem Sequence._include_cons_merge {s : Int} {e : Option Int}
    {rest : List SRange} {a b : Int} (hbrk : ¬(s - 1 > b))
    (habs : ∀ ev, e = some ev → ev + 1 ≥ a) :
    Sequence._include ((s, e) :: rest) a (some b) =
      Sequence.includeExtend (min s a) (some b) (s, e) rest := by
  simp only [Sequence._include]
  rw [if_neg (by simpa using hbrk), if_pos]
  cases e with
  | none => simpa using hbrk
  | some ev =>
    simp only [Bool.and_eq_true, decide_eq_true_eq]
    exact ⟨by omega, habs ev rfl⟩

/-- Branch equation of `Sequence._include`: the head range lies entirely
below `a - 1`, the scan continues. -/
theorem Sequence._include_cons_skip {s ev : Int} {rest : List SRange}
    {a b : Int} (hbrk : ¬(s - 1 > b)) (hskip : ev + 1 < a) :
    Sequence._include ((s, some ev) :: rest) a (some b) =
      (s, some ev) :: Sequence._include rest a (some b) := by
  simp only [Sequence._include]
  rw [if_neg (by simpa using hbrk), if_neg]
  simp only [Bool.and_eq_true, decide_eq_true_eq]
  rintro ⟨-, h2⟩
  omega

/-- Semantics of `Sequence._include` on a canonical sequence: afterwards a
value is a member exactly when it lies in `[a, b]` or was a member before. -/
theorem Sequence._include_mem (a b : Int) (hab : a ≤ b) :
    ∀ (seq : List SRange) (x : Int), Sequence.isCanon seq = true →
      Sequence.mem (Sequence._include seq a (some b)) x =
        ((decide (a ≤ x) && decide (x ≤ b)) || Sequence.mem seq x) := by
  intro seq
  induction seq with
  | nil =>
    intro x _
    simp [Sequence._include]
  | cons r rest ih =>
    intro x hc
    obtain ⟨s, e⟩ := r
    by_cases hbrk : s - 1 > b
    · rw [Sequence._include_cons_insert hbrk]
      apply bool_eq_of_iff
      by_cases hr : Sequence.mem rest x = true <;>
        by_cases hs : Sequence.inR (s, e) x = true <;>
        simp [hr, hs]
    · cases e with
      | none =>
        rw [Sequence._include_cons_merge hbrk (by simp)]
        rw [Sequence.includeExtend_mem b (min s a) rest (s, none) x hc
          (by omega) (by omega)]
        apply bool_eq_of_iff
        by_cases hr : Sequence.mem rest x = true <;>
          simp only [Sequence.mem_cons, Sequence.inR_none, Sequence.inR_some,
            hr, Bool.or_true, Bool.or_false, Bool.or_eq_true,
            Bool.and_eq_true, decide_eq_true_eq] <;>
          omega
      | some ev =>
        by_cases habs : ev + 1 ≥ a
        · rw [Sequence._include_cons_merge hbrk
            (by intro ev' h; injection h with h; omega)]
          rw [Sequence.includeExtend_mem b (min s a) rest (s, some ev) x hc
            (by omega) (by omega)]
          apply bool_eq_of_iff
          by_cases hr : Sequence.mem rest x = true <;>
            simp only [Sequence.mem_cons, Sequence.inR_some, hr, Bool.or_true,
              Bool.or_false, Bool.or_eq_true, Bool.and_eq_true,
              decide_eq_true_eq] <;>
            omega
        · rw [Sequence._include_cons_skip hbrk (by omega)]
          rw [Sequence.mem_cons, ih x (Sequence.isCanon_tail _ _ hc)]
          apply bool_eq_of_iff
          by_cases hr : Sequence.mem rest x = true <;>
            simp only [Sequence.mem_cons, Sequence.inR_some, hr, Bool.or_true,
              Bool.or_false, Bool.false_or, Bool.or_eq_true, Bool.and_eq_true,
              decide_eq_true_eq] <;>
            omega

/-- Gluing a range in front of a canonical list. -/
theorem Sequence.isCanon_cons_of (s ev : Int) (l : List SRange)
    (h1 : 1 ≤ s) (h2 : s ≤ ev) (hl : Sequence.isCanon l = true)
    (hhd : ∀ r', l.head? = some r' → ev + 1 < r'.1) :
    Sequence.isCanon ((s, some ev) :: l) = true := by
  match l with
  | [] => simp [Sequence.isCanon]; omega
  | (s₂, e₂) :: rest =>
    refine (Sequence.isCanon_cons₂ _ _ _ _ _).mpr ⟨h1, ⟨ev, rfl, h2, ?_⟩, hl⟩
    exact hhd (s₂, e₂) rfl

/-- Starts of a canonical sequence are bounded below by the head start. -/
theorem Sequence.canon_start_lb :
    ∀ (seq : List SRange) (r₀ r : SRange),
      Sequence.isCanon seq = true → seq.head? = some r₀ → r ∈ seq →
      r₀.1 ≤ r.1 := by
  intro seq
  induction seq with
  | nil => intro r₀ r _ h; simp at h
  | cons rh rest ih =>
    intro r₀ r hc hh hr
    simp only [List.head?_cons, Option.some.injEq] at hh
    subst hh
    rcases List.mem_cons.mp hr with heq | htl
    · exact le_of_eq (by rw [heq])
    · obtain ⟨s, e⟩ := rh
      match rest, htl with
      | (s₂, e₂) :: rest', htl =>
        obtain ⟨h1, ⟨ev, he, hle, hgap⟩, hc'⟩ :=
          (Sequence.isCanon_cons₂ _ _ _ _ _).mp hc
        have := ih (s₂, e₂) r hc' rfl htl
        simp only
        omega

/-- Members of the tail of a canonical list sit above the head's stop. -/
theorem Sequence.mem_tail_gt (s ev : Int) (e₀ : Option Int)
    (rest : List SRange) (x : Int)
    (hc : Sequence.isCanon ((s, e₀) :: rest) = true) (he : e₀ = some ev)
    (hm : Sequence.mem rest x = true) : ev + 1 < x := by
  subst he
  match rest, hm with
  | (s₂, e₂) :: rest', hm =>
    obtain ⟨h1, ⟨ev', he', hle, hgap⟩, hc'⟩ :=
      (Sequence.isCanon_cons₂ _ _ _ _ _).mp hc
    injection he' with he'
    have := Sequence.mem_head_lb ((s₂, e₂) :: rest') (s₂, e₂) x hc' rfl hm
    simp only at this
    omega

/-- The absorbing loop of `_include` preserves canonicity. -/
theorem Sequence.includeExtend_canon (b m : Int) (hm1 : 1 ≤ m) (hmb : m ≤ b) :
    ∀ (rest : List SRange) (cur : SRange),
      Sequence.isCanon (cur :: rest) = true → m ≤ cur.1 →
      Sequence.isCanon (Sequence.includeExtend m (some b) cur rest) = true := by
  intro rest
  induction rest with
  | nil =>
    intro cur hc hm
    obtain ⟨cs, ce⟩ := cur
    cases ce with
    | none =>
      simp [Sequence.includeExtend, Sequence.mergeStop, Sequence.isCanon]
      omega
    | some ev =>
      have hle : cs ≤ ev := ((Sequence.isCanon_single _ _).mp hc).2 ev rfl
      simp only at hm
      simp [Sequence.includeExtend, Sequence.mergeStop, Sequence.isCanon]
      omega
  | cons r rest' ih =>
    intro cur hc hm
    obtain ⟨cs, ce⟩ := cur
    obtain ⟨s, e⟩ := r
    obtain ⟨h1, ⟨ev, he, hle, hgap⟩, hc'⟩ := (Sequence.isCanon_cons₂ _ _ _ _ _).mp hc
    subst he
    simp only at hm
    by_cases hbrk : s - 1 > b
    · rw [show Sequence.includeExtend m (some b) (cs, some ev) ((s, e) :: rest') =
          (m, Sequence.mergeStop (some ev) (some b)) :: (s, e) :: rest' by
        simp [Sequence.includeExtend, hbrk]]
      simp only [Sequence.mergeStop]
      match rest', hc' with
      | [], hc' =>
        have h2 := (Sequence.isCanon_single _ _).mp hc'
        refine (Sequence.isCanon_cons₂ _ _ _ _ _).mpr ⟨hm1, ⟨max ev b, rfl, ?_, ?_⟩, hc'⟩
          <;> omega
      | (s₂, e₂) :: rest'', hc' =>
        refine (Sequence.isCanon_cons₂ _ _ _ _ _).mpr ⟨hm1, ⟨max ev b, rfl, ?_, ?_⟩, hc'⟩
          <;> omega
    · rw [show Sequence.includeExtend m (some b) (cs, some ev) ((s, e) :: rest') =
          Sequence.includeExtend m (some b) (s, e) rest' by
        simp [Sequence.includeExtend, hbrk]]
      exact ih (s, e) hc' (by omega)

/-- `_include` never returns the empty list. -/
theorem Sequence.includeExtend_head (b m : Int) :
    ∀ (rest : List SRange) (cur : SRange),
      ∃ e', (Sequence.includeExtend m (some b) cur rest).head? = some (m, e') ∧
        (e' = none ∨ ∃ ev', e' = some ev' ∧ b ≤ ev') := by
  intro rest
  induction rest with
  | nil =>
    intro cur
    refine ⟨Sequence.mergeStop cur.2 (some b), rfl, ?_⟩
    obtain ⟨cs, ce⟩ := cur
    cases ce with
    | none => left; rfl
    | some ev => right; exact ⟨max ev b, rfl, le_max_right _ _⟩
  | cons r rest' ih =>
    intro cur
    obtain ⟨s, e⟩ := r
    by_cases hbrk : s - 1 > b
    · rw [show Sequence.includeExtend m (some b) cur ((s, e) :: rest') =
          (m, Sequence.mergeStop cur.2 (some b)) :: (s, e) :: rest' by
        simp [Sequence.includeExtend, hbrk]]
      refine ⟨Sequence.mergeStop cur.2 (some b), rfl, ?_⟩
      obtain ⟨cs, ce⟩ := cur
      cases ce with
      | none => left; rfl
      | some ev => right; exact ⟨max ev b, rfl, le_max_right _ _⟩
    · rw [show Sequence.includeExtend m (some b) cur ((s, e) :: rest') =
          Sequence.includeExtend m (some b) (s, e) rest' by
        simp [Sequence.includeExtend, hbrk]]
      exact ih (s, e)

/-- The head of `_include seq a (some b)` starts at `a`, at the original
head's start, or at their minimum; in particular any strict lower bound of
both `a` and the original head start bounds it. -/
theorem Sequence._include_head (a b : Int) :
    ∀ (seq : List SRange) (v : Int),
      (∀ r₀, seq.head? = some r₀ → v < r₀.1) → v < a →
      ∀ r', (Sequence._include seq a (some b)).head? = some r' → v < r'.1 := by
  intro seq v hv hva r' hr'
  match seq with
  | [] =>
    simp only [Sequence._include, List.head?_cons, Option.some.injEq] at hr'
    subst hr'
    exact hva
  | (s, e) :: rest =>
    have hs := hv (s, e) rfl
    simp only at hs
    by_cases hbrk : s - 1 > b
    · rw [Sequence._include_cons_insert hbrk] at hr'
      simp only [List.head?_cons, Option.some.injEq] at hr'
      subst hr'
      exact hva
    · by_cases habs : (∀ ev, e = some ev → ev + 1 ≥ a)
      · rw [Sequence._include_cons_merge hbrk habs] at hr'
        obtain ⟨e', hh, -⟩ := Sequence.includeExtend_head b (min s a) rest (s, e)
        rw [hh] at hr'
        injection hr' with hr'
        subst hr'
        simp only
        omega
      · push_neg at habs
        obtain ⟨ev, he, hlt⟩ := habs
        subst he
        rw [Sequence._include_cons_skip hbrk (by omega)] at hr'
        simp only [List.head?_cons, Option.some.injEq] at hr'
        subst hr'
        exact hs

/-- `_include` preserves canonicity. -/
theorem Sequence._include_canon (a b : Int) (ha : 1 ≤ a) (hab : a ≤ b) :
    ∀ (seq : List SRange), Sequence.isCanon seq = true →
      Sequence.isCanon (Sequence._include seq a (some b)) = true := by
  intro seq
  induction seq with
  | nil =>
    intro _
    simp [Sequence._include, Sequence.isCanon]
    omega
  | cons r rest ih =>
    intro hc
    obtain ⟨s, e⟩ := r
    by_cases hbrk : s - 1 > b
    · rw [Sequence._include_cons_insert hbrk]
      refine (Sequence.isCanon_cons₂ _ _ _ _ _).mpr ⟨ha, ⟨b, rfl, hab, by omega⟩, hc⟩
    · by_cases habs : (∀ ev, e = some ev → ev + 1 ≥ a)
      · rw [Sequence._include_cons_merge hbrk habs]
        have h1 : (1 : Int) ≤ s := by
          match rest, hc with
          | [], hc => exact ((Sequence.isCanon_single _ _).mp hc).1
          | (s₂, e₂) :: rest', hc => exact ((Sequence.isCanon_cons₂ _ _ _ _ _).mp hc).1
        exact Sequence.includeExtend_canon b (min s a) (by omega) (by omega)
          rest (s, e) hc (by simp)
      · push_neg at habs
        obtain ⟨ev, he, hlt⟩ := habs
        subst he
        rw [Sequence._include_cons_skip hbrk (by omega)]
        have hle : s ≤ ev := by
          match rest, hc with
          | [], hc => exact ((Sequence.isCanon_single _ _).mp hc).2 ev rfl
          | (s₂, e₂) :: rest', hc =>
            obtain ⟨-, ⟨ev', he', h', -⟩, -⟩ := (Sequence.isCanon_cons₂ _ _ _ _ _).mp hc
            injection he' with he'
            omega
        have h1 : (1 : Int) ≤ s := by
          match rest, hc with
          | [], hc => exact ((Sequence.isCanon_single _ _).mp hc).1
          | (s₂, e₂) :: rest', hc => exact ((Sequence.isCanon_cons₂ _ _ _ _ _).mp hc).1
        refine Sequence.isCanon_cons_of s ev _ h1 hle
          (ih (Sequence.isCanon_tail _ _ hc)) ?_
        intro r' hr'
        refine Sequence._include_head a b rest (ev + 1) ?_ (by omega) r' hr'
        intro r₀ hr₀
        match rest, hr₀, hc with
        | (s₂, e₂) :: rest', hr₀, hc =>
          obtain ⟨-, ⟨ev', he', -, hgap⟩, -⟩ := (Sequence.isCanon_cons₂ _ _ _ _ _).mp hc
          injection he' with he'
          injection hr₀ with hr₀
          subst hr₀
          simp only
          omega

/-- After `_include seq a (some b)` some single range covers `[a, b]`. -/
theorem Sequence._include_covers (a b : Int) :
    ∀ (seq : List SRange),
      ∃ r, r ∈ Sequence._include seq a (some b) ∧ r.1 ≤ a ∧
        (r.2 = none ∨ ∃ ev, r.2 = some ev ∧ b ≤ ev) := by
  intro seq
  induction seq with
  | nil =>
    exact ⟨(a, some b), by simp [Sequence._include], le_refl a,
      Or.inr ⟨b, rfl, le_refl b⟩⟩
  | cons r rest ih =>
    obtain ⟨s, e⟩ := r
    by_cases hbrk : s - 1 > b
    · rw [Sequence._include_cons_insert hbrk]
      exact ⟨(a, some b), by simp, le_refl a, Or.inr ⟨b, rfl, le_refl b⟩⟩
    · by_cases habs : (∀ ev, e = some ev → ev + 1 ≥ a)
      · rw [Sequence._include_cons_merge hbrk habs]
        obtain ⟨e', hh, hcov⟩ := Sequence.includeExtend_head b (min s a) rest (s, e)
        exact ⟨(min s a, e'), List.mem_of_mem_head? hh, by omega, hcov⟩
      · push_neg at habs
        obtain ⟨ev, he, hlt⟩ := habs
        subst he
        rw [Sequence._include_cons_skip hbrk (by omega)]
        obtain ⟨r', hr', hcov⟩ := ih
        exact ⟨r', List.mem_cons_of_mem _ hr', hcov⟩

/-- Branch equation of `excludeStep`: head range below `range_start`. -/
theorem Sequence.excludeStep_cons_skip {s ev rs re : Int} {rest : List SRange}
    (h : ev < rs) :
    Sequence.excludeStep rs re ((s, some ev) :: rest) =
      ((s, some ev) :: (Sequence.excludeStep rs re rest).1,
       (Sequence.excludeStep rs re rest).2) := by
  simp only [Sequence.excludeStep]
  rw [if_pos h]

/-- Branch equation of `excludeStep`: unbounded head range. -/
theorem Sequence.excludeStep_cons_none {s rs re : Int} {rest : List SRange} :
    Sequence.excludeStep rs re ((s, none) :: rest) =
      ((if s < rs then (s, some (rs - 1)) :: (re + 1, none) :: rest
        else (re + 1, none) :: rest), none) := rfl

/-- Branch equation of `excludeStep`: the processed range survives above
`range_end`. -/
theorem Sequence.excludeStep_cons_keep {s ev rs re : Int} {rest : List SRange}
    (h1 : ¬ev < rs) (h2 : ev > re) :
    Sequence.excludeStep rs re ((s, some ev) :: rest) =
      ((if s < rs then (s, some (rs - 1)) :: (re + 1, some ev) :: rest
        else (re + 1, some ev) :: rest),
       if ev + 1 < re then some (ev + 1) else none) := by
  simp only [Sequence.excludeStep]
  rw [if_neg h1, if_pos h2]

/-- Branch equation of `excludeStep`: the processed range is trimmed or
deleted. -/
theorem Sequence.excludeStep_cons_del {s ev rs re : Int} {rest : List SRange}
    (h1 : ¬ev < rs) (h2 : ¬ev > re) :
    Sequence.excludeStep rs re ((s, some ev) :: rest) =
      ((if s < rs then (s, some (rs - 1)) :: rest else rest),
       if ev + 1 < re then some (ev + 1) else none) := by
  simp only [Sequence.excludeStep]
  rw [if_neg h1, if_neg h2]

/-- `Sequence._exclude` of `[a, b]` on a canonical sequence in which a
single range covers `[a, b]` finishes in one pass of the loop: the loop
does not restart, the result is canonical, its members are the previous
members outside `[a, b]`, and its head starts at the previous head's start
or above `b`. -/
theorem Sequence.excludeStep_covered (a b : Int) (ha : 1 ≤ a) (hab : a ≤ b) :
    ∀ (seq : List SRange), Sequence.isCanon seq = true →
      (∃ r, r ∈ seq ∧ r.1 ≤ a ∧
        (r.2 = none ∨ ∃ ev, r.2 = some ev ∧ b ≤ ev)) →
      ∃ l, Sequence.excludeStep a b seq = (l, none) ∧
        Sequence.isCanon l = true ∧
        (∀ x, Sequence.mem l x =
          (Sequence.mem seq x && !(decide (a ≤ x) && decide (x ≤ b)))) ∧
        (∀ r', l.head? = some r' →
          b + 1 ≤ r'.1 ∨ ∃ r₀, seq.head? = some r₀ ∧ r₀.1 ≤ r'.1) := by
  intro seq
  induction seq with
  | nil =>
    rintro - ⟨r, hr, -⟩
    simp at hr
  | cons rh rest ih =>
    rintro hc ⟨r, hr, hra, hcov⟩
    obtain ⟨s, e⟩ := rh
    cases e with
    | none =>
      -- canonical: an unbounded range is the last one, so `rest = []`
      -- and the covering range is the head itself
      match rest, hc with
      | (s₂, e₂) :: rest', hc => simp [Sequence.isCanon] at hc
      | [], hc =>
        have h1 : (1 : Int) ≤ s := ((Sequence.isCanon_single _ _).mp hc).1
        have hsa : s ≤ a := by
          rcases List.mem_cons.mp hr with heq | htl
          · rw [heq] at hra; exact hra
          · simp at htl
        refine ⟨_, Sequence.excludeStep_cons_none, ?_, ?_, ?_⟩
        · by_cases hlt : s < a
          · rw [if_pos hlt]
            refine (Sequence.isCanon_cons₂ _ _ _ _ _).mpr
              ⟨h1, ⟨a - 1, rfl, by omega, by omega⟩, ?_⟩
            simp [Sequence.isCanon]
            omega
          · rw [if_neg hlt]
            simp [Sequence.isCanon]
            omega
        · intro x
          apply bool_eq_of_iff
          by_cases hlt : s < a
          · rw [if_pos hlt]
            simp only [Sequence.mem_cons, Sequence.mem_nil, Sequence.inR_none,
              Sequence.inR_some, Bool.or_false, Bool.or_eq_true,
              Bool.and_eq_true, Bool.not_eq_true', Bool.and_eq_false_iff,
              decide_eq_true_eq, decide_eq_false_iff_not]
            omega
          · rw [if_neg hlt]
            simp only [Sequence.mem_cons, Sequence.mem_nil, Sequence.inR_none,
              Sequence.inR_some, Bool.or_false, Bool.or_eq_true,
              Bool.and_eq_true, Bool.not_eq_true', Bool.and_eq_false_iff,
              decide_eq_true_eq, decide_eq_false_iff_not]
            omega
        · intro r' hr'
          by_cases hlt : s < a
          · rw [if_pos hlt] at hr'
            simp only [List.head?_cons, Option.some.injEq] at hr'
            subst hr'
            exact Or.inr ⟨(s, none), rfl, le_refl _⟩
          · rw [if_neg hlt] at hr'
            simp only [List.head?_cons, Option.some.injEq] at hr'
            subst hr'
            exact Or.inl (by omega)
    | some ev =>
      by_cases hskip : ev < a
      · -- head below the excluded range: `continue`
        have hcrest : Sequence.isCanon rest = true := Sequence.isCanon_tail _ _ hc
        have hcovrest : ∃ r, r ∈ rest ∧ r.1 ≤ a ∧
            (r.2 = none ∨ ∃ ev', r.2 = some ev' ∧ b ≤ ev') := by
          rcases List.mem_cons.mp hr with heq | htl
          · exfalso
            subst heq
            rcases hcov with hcov | ⟨ev', heq', hbev⟩
            · simp at hcov
            · injection heq' with heq'
              omega
          · exact ⟨r, htl, hra, hcov⟩
        obtain ⟨l', hstep, hcanon', hmem', hhead'⟩ := ih hcrest hcovrest
        refine ⟨(s, some ev) :: l', ?_, ?_, ?_, ?_⟩
        · rw [Sequence.excludeStep_cons_skip hskip, hstep]
        · have h1 : (1 : Int) ≤ s := by
            match rest, hc with
            | [], hc => exact ((Sequence.isCanon_single _ _).mp hc).1
            | (s₂, e₂) :: rest', hc =>
              exact ((Sequence.isCanon_cons₂ _ _ _ _ _).mp hc).1
          have hle : s ≤ ev := by
            match rest, hc with
            | [], hc => exact ((Sequence.isCanon_single _ _).mp hc).2 ev rfl
            | (s₂, e₂) :: rest', hc =>
              obtain ⟨-, ⟨ev', he', h', -⟩, -⟩ :=
                (Sequence.isCanon_cons₂ _ _ _ _ _).mp hc
              injection he' with he'
              omega
          refine Sequence.isCanon_cons_of s ev l' h1 hle hcanon' ?_
          intro r' hr'
          rcases hhead' r' hr' with hb | ⟨r₀, hr₀, hle₀⟩
          · omega
          · match rest, hr₀, hc with
            | (s₂, e₂) :: rest', hr₀, hc =>
              obtain ⟨-, ⟨ev', he', -, hgap⟩, -⟩ :=
                (Sequence.isCanon_cons₂ _ _ _ _ _).mp hc
              injection he' with he'
              injection hr₀ with hr₀
              subst hr₀
              simp only at hle₀
              omega
        · intro x
          rw [Sequence.mem_cons, hmem' x]
          apply bool_eq_of_iff
          by_cases hm : Sequence.mem rest x = true <;>
            simp only [Sequence.mem_cons, Sequence.inR_some, hm, Bool.or_true,
              Bool.or_false, Bool.true_or, Bool.false_or, Bool.true_and,
              Bool.and_true, Bool.or_eq_true, Bool.and_eq_true,
              Bool.not_eq_true', Bool.and_eq_false_iff, decide_eq_true_eq,
              decide_eq_false_iff_not, Bool.false_eq_true, false_and, true_and,
              or_false, false_or, and_true, and_false, true_iff, iff_true, false_iff, iff_false, not_or, not_and, not_not] <;>
            omega
        · intro r' hr'
          simp only [List.head?_cons, Option.some.injEq] at hr'
          subst hr'
          exact Or.inr ⟨(s, some ev), rfl, le_refl _⟩
      · -- the head reaches the excluded range, so it is the covering range
        have hhead : s ≤ a ∧ b ≤ ev := by
          rcases List.mem_cons.mp hr with heq | htl
          · subst heq
            rcases hcov with hcov | ⟨ev', heq', hbev⟩
            · simp at hcov
            · injection heq' with heq'
              subst heq'
              exact ⟨hra, hbev⟩
          · exfalso
            match rest, htl, hc with
            | (s₂, e₂) :: rest', htl, hc =>
              obtain ⟨-, ⟨ev', he', -, hgap⟩, hc'⟩ :=
                (Sequence.isCanon_cons₂ _ _ _ _ _).mp hc
              injection he' with he'
              have := Sequence.canon_start_lb ((s₂, e₂) :: rest') (s₂, e₂) r hc' rfl htl
              simp only at this
              omega
        have h1 : (1 : Int) ≤ s := by
          match rest, hc with
          | [], hc => exact ((Sequence.isCanon_single _ _).mp hc).1
          | (s₂, e₂) :: rest', hc =>
            exact ((Sequence.isCanon_cons₂ _ _ _ _ _).mp hc).1
        have hcrest : Sequence.isCanon rest = true := Sequence.isCanon_tail _ _ hc
        have hgaprest : ∀ r₀, rest.head? = some r₀ → ev + 1 < r₀.1 := by
          intro r₀ hr₀
          match rest, hr₀, hc with
          | (s₂, e₂) :: rest', hr₀, hc =>
            obtain ⟨-, ⟨ev', he', -, hgap⟩, -⟩ :=
              (Sequence.isCanon_cons₂ _ _ _ _ _).mp hc
            injection he' with he'
            injection hr₀ with hr₀
            subst hr₀
            simp only
            omega
        have hmemrest : ∀ x, Sequence.mem rest x = true → ev + 1 < x :=
          fun x hx => Sequence.mem_tail_gt s ev (some ev) rest x hc rfl hx
        by_cases hgt : ev > b
        · -- the range survives as `[b + 1, ev]`
          have hcont : ¬(ev + 1 < b) := by omega
          refine ⟨_, by rw [Sequence.excludeStep_cons_keep hskip hgt, if_neg hcont], ?_, ?_, ?_⟩
          · have hcanon2 : Sequence.isCanon ((b + 1, some ev) :: rest) = true :=
              Sequence.isCanon_cons_of (b + 1) ev rest (by omega) (by omega)
                hcrest hgaprest
            by_cases hlt : s < a
            · rw [if_pos hlt]
              exact Sequence.isCanon_cons_of s (a - 1)
                ((b + 1, some ev) :: rest) h1 (by omega) hcanon2
                (by intro r' hr'; simp only [List.head?_cons,
                  Option.some.injEq] at hr'; subst hr'; simp only; omega)
            · rw [if_neg hlt]
              exact hcanon2
          · intro x
            have hx : Sequence.mem rest x = true → ev + 1 < x := hmemrest x
            by_cases hlt : s < a
            · rw [if_pos hlt]
              apply bool_eq_of_iff
              by_cases hm : Sequence.mem rest x = true <;>
                simp only [Sequence.mem_cons, Sequence.inR_some, hm,
                  Bool.or_true, Bool.or_false, Bool.true_or, Bool.false_or,
                  Bool.or_eq_true, Bool.and_eq_true, Bool.not_eq_true',
                  Bool.and_eq_false_iff, decide_eq_true_eq,
                  decide_eq_false_iff_not, Bool.false_eq_true, false_and,
                  true_and, or_false, false_or, and_true, and_false, true_iff, iff_true, false_iff, iff_false, not_or, not_and, not_not] <;>
                [exact (by have := hx hm; omega); omega]
            · rw [if_neg hlt]
              apply bool_eq_of_iff
              by_cases hm : Sequence.mem rest x = true <;>
                simp only [Sequence.mem_cons, Sequence.inR_some, hm,
                  Bool.or_true, Bool.or_false, Bool.true_or, Bool.false_or,
                  Bool.or_eq_true, Bool.and_eq_true, Bool.not_eq_true',
                  Bool.and_eq_false_iff, decide_eq_true_eq,
                  decide_eq_false_iff_not, Bool.false_eq_true, false_and,
                  true_and, or_false, false_or, and_true, and_false, true_iff, iff_true, false_iff, iff_false, not_or, not_and, not_not] <;>
                [exact (by have := hx hm; omega); omega]
          · intro r' hr'
            by_cases hlt : s < a
            · rw [if_pos hlt] at hr'
              simp only [List.head?_cons, Option.some.injEq] at hr'
              subst hr'
              exact Or.inr ⟨(s, some ev), rfl, le_refl _⟩
            · rw [if_neg hlt] at hr'
              simp only [List.head?_cons, Option.some.injEq] at hr'
              subst hr'
              exact Or.inl (by omega)
        · -- `ev = b`: the range is trimmed to `[s, a - 1]` or deleted
          have hcont : ¬(ev + 1 < b) := by omega
          refine ⟨_, by rw [Sequence.excludeStep_cons_del hskip hgt, if_neg hcont], ?_, ?_, ?_⟩
          · by_cases hlt : s < a
            · rw [if_pos hlt]
              refine Sequence.isCanon_cons_of s (a - 1) rest h1 (by omega) hcrest ?_
              intro r' hr'
              have := hgaprest r' hr'
              omega
            · rw [if_neg hlt]
              exact hcrest
          · intro x
            have hx : Sequence.mem rest x = true → ev + 1 < x := hmemrest x
            by_cases hlt : s < a
            · rw [if_pos hlt]
              apply bool_eq_of_iff
              by_cases hm : Sequence.mem rest x = true <;>
                simp only [Sequence.mem_cons, Sequence.inR_some, hm,
                  Bool.or_true, Bool.or_false, Bool.true_or, Bool.false_or,
                  Bool.or_eq_true, Bool.and_eq_true, Bool.not_eq_true',
                  Bool.and_eq_false_iff, decide_eq_true_eq,
                  decide_eq_false_iff_not, Bool.false_eq_true, false_and,
                  true_and, or_false, false_or, and_true, and_false, true_iff, iff_true, false_iff, iff_false, not_or, not_and, not_not] <;>
                [exact (by have := hx hm; omega); omega]
            · rw [if_neg hlt]
              apply bool_eq_of_iff
              by_cases hm : Sequence.mem rest x = true <;>
                simp only [Sequence.mem_cons, Sequence.inR_some, hm,
                  Bool.or_true, Bool.or_false, Bool.true_or, Bool.false_or,
                  Bool.or_eq_true, Bool.and_eq_true, Bool.not_eq_true',
                  Bool.and_eq_false_iff, decide_eq_true_eq,
                  decide_eq_false_iff_not, Bool.false_eq_true, false_and,
                  true_and, or_false, false_or, and_true, and_false, true_iff, iff_true, false_iff, iff_false, not_or, not_and, not_not] <;>
                [exact (by have := hx hm; omega); omega]
          · intro r' hr'
            by_cases hlt : s < a
            · rw [if_pos hlt] at hr'
              simp only [List.head?_cons, Option.some.injEq] at hr'
              subst hr'
              exact Or.inr ⟨(s, some ev), rfl, le_refl _⟩
            · rw [if_neg hlt] at hr'
              rcases hgaprest r' hr' with h
              exact Or.inl (by omega)

/-- The head of a canonical sequence is an ordered range. -/
theorem Sequence.canon_head_le (s ev : Int) (e : Option Int)
    (rest : List SRange) (hc : Sequence.isCanon ((s, e) :: rest) = true)
    (he : e = some ev) : s ≤ ev := by
  subst he
  match rest, hc with
  | [], hc => exact ((Sequence.isCanon_single _ _).mp hc).2 ev rfl
  | (s₂, e₂) :: rest', hc =>
    obtain ⟨-, ⟨ev', he', h', -⟩, -⟩ := (Sequence.isCanon_cons₂ _ _ _ _ _).mp hc
    injection he' with he'
    omega

/-- The head start of a canonical sequence is a member. -/
theorem Sequence.mem_head_self (s : Int) (e : Option Int) (rest : List SRange)
    (hc : Sequence.isCanon ((s, e) :: rest) = true) :
    Sequence.mem ((s, e) :: rest) s = true := by
  rw [Sequence.mem_cons]
  cases e with
  | none => simp
  | some ev =>
    have hle : s ≤ ev := Sequence.canon_head_le s ev (some ev) rest hc rfl
    simp
    omega

/-- The successor of the head's stop of a canonical sequence is missing. -/
theorem Sequence.mem_stop_succ_false (s ev : Int) (rest : List SRange)
    (hc : Sequence.isCanon ((s, some ev) :: rest) = true) :
    Sequence.mem ((s, some ev) :: rest) (ev + 1) = false := by
  rw [Sequence.mem_cons]
  cases hm : Sequence.mem rest (ev + 1) with
  | false => simp
  | true =>
    have := Sequence.mem_tail_gt s ev (some ev) rest (ev + 1) hc rfl hm
    omega

/-- Canonical sequences with the same members are equal. -/
theorem Sequence.canon_ext :
    ∀ (s t : List SRange), Sequence.isCanon s = true →
      Sequence.isCanon t = true →
      (∀ x, Sequence.mem s x = Sequence.mem t x) → s = t := by
  intro s
  induction s with
  | nil =>
    intro t _ hct h
    match t with
    | [] => rfl
    | (t₁, f₁) :: t' =>
      have := Sequence.mem_head_self t₁ f₁ t' hct
      have h0 := h t₁
      rw [this] at h0
      simp at h0
  | cons hd s' ih =>
    intro t hcs hct h
    obtain ⟨s₁, e₁⟩ := hd
    match t with
    | [] =>
      have := Sequence.mem_head_self s₁ e₁ s' hcs
      have h0 := h s₁
      rw [this] at h0
      simp at h0
    | (t₁, f₁) :: t' =>
      -- head starts coincide
      have hst : s₁ = t₁ := by
        have h1 := h s₁
        rw [Sequence.mem_head_self s₁ e₁ s' hcs] at h1
        have h2 := h t₁
        rw [Sequence.mem_head_self t₁ f₁ t' hct] at h2
        have hb1 := Sequence.mem_head_lb _ (t₁, f₁) s₁ hct rfl h1.symm
        have hb2 := Sequence.mem_head_lb _ (s₁, e₁) t₁ hcs rfl h2
        simp only at hb1 hb2
        omega
      subst hst
      -- head stops coincide
      have hse : e₁ = f₁ := by
        match e₁, f₁ with
        | none, none => rfl
        | none, some fv =>
          exfalso
          have hle : s₁ ≤ fv := Sequence.canon_head_le s₁ fv (some fv) t' hct rfl
          have h1 := h (fv + 1)
          rw [Sequence.mem_stop_succ_false s₁ fv t' hct] at h1
          rw [Sequence.mem_cons] at h1
          simp only [Sequence.inR_none] at h1
          have hx : s₁ ≤ fv + 1 := by omega
          simp [hx] at h1
        | some ev, none =>
          exfalso
          have hle : s₁ ≤ ev := Sequence.canon_head_le s₁ ev (some ev) s' hcs rfl
          have h1 := (h (ev + 1)).symm
          rw [Sequence.mem_stop_succ_false s₁ ev s' hcs] at h1
          rw [Sequence.mem_cons] at h1
          simp only [Sequence.inR_none] at h1
          have hx : s₁ ≤ ev + 1 := by omega
          simp [hx] at h1
        | some ev, some fv =>
          rcases lt_trichotomy ev fv with hlt | heq | hlt
          · exfalso
            have hle : s₁ ≤ ev := Sequence.canon_head_le s₁ ev (some ev) s' hcs rfl
            have h1 := (h (ev + 1)).symm
            rw [Sequence.mem_stop_succ_false s₁ ev s' hcs] at h1
            rw [Sequence.mem_cons] at h1
            simp only [Sequence.inR_some] at h1
            have hx1 : s₁ ≤ ev + 1 := by omega
            have hx2 : ev + 1 ≤ fv := by omega
            simp [hx1, hx2] at h1
          · rw [heq]
          · exfalso
            have hle : s₁ ≤ fv := Sequence.canon_head_le s₁ fv (some fv) t' hct rfl
            have h1 := h (fv + 1)
            rw [Sequence.mem_stop_succ_false s₁ fv t' hct] at h1
            rw [Sequence.mem_cons] at h1
            simp only [Sequence.inR_some] at h1
            have hx1 : s₁ ≤ fv + 1 := by omega
            have hx2 : fv + 1 ≤ ev := by omega
            simp [hx1, hx2] at h1
      subst hse
      -- tails coincide
      congr 1
      refine ih t' (Sequence.isCanon_tail _ _ hcs) (Sequence.isCanon_tail _ _ hct) ?_
      intro z
      cases e₁ with
      | none =>
        -- a canonical list with an unbounded head has an empty tail
        have hs' : s' = [] := by
          match s', hcs with
          | [], _ => rfl
          | (a₂, b₂) :: s'', hcs => simp [Sequence.isCanon] at hcs
        have ht' : t' = [] := by
          match t', hct with
          | [], _ => rfl
          | (a₂, b₂) :: t'', hct => simp [Sequence.isCanon] at hct
        rw [hs', ht']
      | some ev =>
        have hz := h z
        rw [Sequence.mem_cons, Sequence.mem_cons] at hz
        cases hin : Sequence.inR (s₁, some ev) z with
        | false => rw [hin] at hz; simpa using hz
        | true =>
          have hzle : z ≤ ev := by
            simp only [Sequence.inR_some, Bool.and_eq_true, decide_eq_true_eq] at hin
            exact hin.2
          cases hms : Sequence.mem s' z with
          | true =>
            have := Sequence.mem_tail_gt s₁ ev (some ev) s' z hcs rfl hms
            omega
          | false =>
            cases hmt : Sequence.mem t' z with
            | true =>
              have := Sequence.mem_tail_gt s₁ ev (some ev) t' z hct rfl hmt
              omega
            | false => rfl

/-! ### Claim C1 -/

/-- C1, counterexample: the claim's second conjunct fails as stated.  On
the well-formed sequence `[[1, 10]]` with `a = 3 ≤ b = 5` (positive),
`include(3, 5)` leaves `[[1, 10]]` unchanged, and the following
`exclude(3, 5)` yields `[[1, 2], [6, 10]]`, not the original sequence:
`include` followed by `exclude` of the same range does not restore a
sequence that already overlapped the range. -/
theorem C1_counterexample :
    Sequence.isCanon [((1 : Int), some (10 : Int))] = true ∧
    (1 : Int) ≤ 3 ∧ (3 : Int) ≤ 5 ∧
    ¬(Sequence.excludeRange
        (Sequence.includeRange [(1, some 10)] 3 (some 5)) 3 5 =
      [(1, some 10)]) := by
  refine ⟨by decide, by decide, by decide, ?_⟩
  have h1 : Sequence.includeRange [((1 : Int), some (10 : Int))] 3 (some 5) =
      [(1, some 10)] := by decide
  rw [h1]
  have h2 : Sequence.excludeRange [((1 : Int), some (10 : Int))] 3 5 =
      [(1, some 2), (6, some 10)] :=
    Sequence._exclude_step_none _ _ _ _ (by decide)
  rw [h2]
  decide

/-- C1 (amended): for every well-formed `Sequence` `seq` and positive
integers `a ≤ b`, after `seq.include(a, b)` a value `x` is contained iff
`a ≤ x ≤ b` or `seq` contained `x` before; and `include(a, b)` followed by
`exclude(a, b)` restores the sequence provided no value of `[a, b]` was
contained before the `include` (the counterexample forces this proviso:
on overlap the `exclude` also removes previously-present values). -/
theorem C1_sequence_include_exclude (seq : List SRange) (a b : Int)
    (hcanon : Sequence.isCanon seq = true) (ha : 1 ≤ a) (hab : a ≤ b) :
    (∀ x, Sequence.mem (Sequence.includeRange seq a (some b)) x =
      ((decide (a ≤ x) && decide (x ≤ b)) || Sequence.mem seq x)) ∧
    ((∀ x, a ≤ x → x ≤ b → Sequence.mem seq x = false) →
      Sequence.excludeRange (Sequence.includeRange seq a (some b)) a b = seq) := by
  constructor
  · exact fun x => Sequence._include_mem a b hab seq x hcanon
  · intro hdisj
    have hcanon_t : Sequence.isCanon (Sequence._include seq a (some b)) = true :=
      Sequence._include_canon a b ha hab seq hcanon
    have hcov := Sequence._include_covers a b seq
    obtain ⟨l, hstep, hcanonl, hmeml, -⟩ :=
      Sequence.excludeStep_covered a b ha hab
        (Sequence._include seq a (some b)) hcanon_t hcov
    have hx : Sequence.excludeRange (Sequence.includeRange seq a (some b)) a b = l :=
      Sequence._exclude_step_none _ _ _ _ hstep
    rw [hx]
    refine Sequence.canon_ext l seq hcanonl hcanon ?_
    intro x
    rw [hmeml x, Sequence._include_mem a b hab seq x hcanon]
    by_cases hin : a ≤ x ∧ x ≤ b
    · rw [hdisj x hin.1 hin.2]
      simp [hin.1, hin.2]
    · rcases not_and_or.mp hin with hno | hno <;>
        cases hm : Sequence.mem seq x <;>
        simp [hm, hno]

/-- C1 witness: the amended theorem applied at the concrete sequence
`[[1, 2]]` and the disjoint range `[4, 5]`; the sequence is restored. -/
theorem C1_witness :
    Sequence.excludeRange
      (Sequence.includeRange [((1 : Int), some (2 : Int))] 4 (some 5)) 4 5 =
      [(1, some 2)] :=
  (C1_sequence_include_exclude [(1, some 2)] 4 5 (by decide) (by decide)
    (by decide)).2
    (by
      intro x h1 h2
      simp only [Sequence.mem_cons, Sequence.mem_nil, Sequence.inR_some,
        Bool.or_false, Bool.and_eq_false_iff, decide_eq_false_iff_not]
      omega)

/-! ## `active_document/env.py` — `Seqno`

Per-volume persistent sequence-number counter. -/

/-- `Seqno` state: the current value and the value at the last commit
(`self._value`, `self._orig_value`). -/
structure Seqno where
  value : Int
  orig_value : Int
deriving DecidableEq, Repr

/-- `Seqno.next`: `self._value += 1; return self._value`. -/
def Seqno.next (s : Seqno) : Int × Seqno :=
  (s.value + 1, { s with value := s.value + 1 })

/-- `Seqno.commit`: store the value when it changed since the last commit
(the file write itself is I/O and not modelled). -/
def Seqno.commit (s : Seqno) : Bool × Seqno :=
  if s.value = s.orig_value then (false, s)
  else (true, { s with orig_value := s.value })

/-- A run of `n` successive `Seqno.next` calls: the list of returned
values and the final counter state.  Those calls may come from any of the
volume's directories, which all share the counter. -/
def Seqno.run (s : Seqno) : Nat → List Int × Seqno
  | 0 => ([], s)
  | n + 1 =>
    let (v, s') := s.next
    let (vs, s'') := Seqno.run s' n
    (v :: vs, s'')

/-- Invariants of a `Seqno.run`: the final value advances by `n`, every
returned value lies in `(s.value, s.value + n]`, and the returned values
are strictly increasing in call order. -/
theorem Seqno.run_spec (n : Nat) :
    ∀ s : Seqno,
      (Seqno.run s n).2.value = s.value + n ∧
      (∀ u ∈ (Seqno.run s n).1, s.value < u ∧ u ≤ s.value + n) ∧
      List.Pairwise (· < ·) (Seqno.run s n).1 := by
  induction n with
  | zero => intro s; simp [Seqno.run]
  | succ m ih =>
    intro s
    obtain ⟨h1, h2, h3⟩ := ih { s with value := s.value + 1 }
    simp only [Seqno.run, Seqno.next]
    refine ⟨by rw [h1]; simp; omega, ?_, ?_⟩
    · intro u hu
      rcases List.mem_cons.mp hu with rfl | hu
      · omega
      · have := h2 u hu
        simp only at this
        omega
    · refine List.pairwise_cons.mpr ⟨?_, h3⟩
      intro u hu
      have := (h2 u hu).1
      simp only at this
      omega

/-- The seqno assignment at the head of `Directory._pre_store`:
`seqno = changes.get('seqno'); if increment_seqno and not seqno:
seqno = changes['seqno'] = self._seqno.next()` (Python falsy: absent
maps to `none`, and `0` also counts as unset). -/
def Directory.preStoreSeqno (changes_seqno : Option Int)
    (increment_seqno : Bool) (s : Seqno) : Option Int × Seqno :=
  if increment_seqno &&
      (match changes_seqno with | none => true | some v => decide (v = 0)) then
    ((s.next).1, (s.next).2) |> fun p => (some p.1, p.2)
  else (changes_seqno, s)

/-! ### Claim C7 -/

/-- C7: the volume's `Seqno` counter is strictly increasing.  After any
`n` previous `next()` calls (from any directories sharing the counter),
the seqno a `Directory.create` assigns through `_pre_store` (no incoming
`seqno`, `increment_seqno = True`) is `value + 1`, strictly greater than
every previously returned seqno, and the previously returned seqnos are
themselves strictly increasing in call order. -/
theorem C7_seqno_strictly_increasing (s : Seqno) (n : Nat) :
    (Directory.preStoreSeqno none true (Seqno.run s n).2).1 =
      some ((Seqno.run s n).2.value + 1) ∧
    (∀ u ∈ (Seqno.run s n).1, u < (Seqno.run s n).2.value + 1) ∧
    List.Pairwise (· < ·) (Seqno.run s n).1 := by
  obtain ⟨h1, h2, h3⟩ := Seqno.run_spec n s
  refine ⟨rfl, ?_, h3⟩
  intro u hu
  have := h2 u hu
  omega

/-! ## `active_document/directory.py` — `Directory.merge`

Per-property metadata as stored by `storage.Record`: a dictionary with at
least `mtime`, `seqno` and `value` (BLOB side fields do not matter to the
merge decision and are folded into `value`). -/

/-- A stored property record `{value, seqno, mtime, ...}`. -/
structure PropMeta (α : Type) where
  mtime : Int
  seqno : Int
  value : α
deriving DecidableEq, Repr

/-- An incoming diff entry for one property: `{mtime, value, ...}` (its
`seqno` is assigned by `merge`). -/
structure DiffMeta (α : Type) where
  mtime : Int
  value : α
deriving DecidableEq, Repr

/-- Association-list update, modelling one property-file write. -/
def assocSet {β : Type} : List (String × β) → String → β → List (String × β)
  | [], k, v => [(k, v)]
  | (k', v') :: rest, k, v =>
    if k' = k then (k, v) :: rest else (k', v') :: assocSet rest k v

/-- `Record.get(prop)`: the stored meta, or `none` when the property file
does not exist. -/
def Record.get {β : Type} (rec : List (String × β)) (prop : String) :
    Option β :=
  (rec.find? (fun e => e.1 = prop)).map (·.2)

/-- The `meta['seqno']` assignment inside the `Directory.merge` loop for
one accepted property: with `increment_seqno` the shared loop `seqno` is
drawn once from the volume counter (`if not seqno: seqno =
self._seqno.next()`; Python treats `None` and `0` as unset), otherwise
`(orig_meta or {}).get('seqno') or 0` is used. -/
def Directory.mergeSeqno {α : Type} (increment_seqno : Bool)
    (orig : Option (PropMeta α)) (seqno : Option Int) (s : Seqno) :
    Int × Option Int × Seqno :=
  if increment_seqno then
    match seqno with
    | none => ((s.next).1, some (s.next).1, (s.next).2)
    | some v =>
      if v = 0 then ((s.next).1, some (s.next).1, (s.next).2)
      else (v, some v, s)
  else
    ((match orig with
      | some o => if o.seqno = 0 then 0 else o.seqno
      | none => 0), seqno, s)

/-- The `for prop, meta in diff.items()` loop of `Directory.merge`: a
stored property whose `mtime` is greater than or equal to the incoming
one is kept (`continue`); otherwise the incoming meta is stamped with a
seqno and written via `record.set`. -/
def Directory.mergeLoop {α : Type} (increment_seqno : Bool) :
    List (String × DiffMeta α) → List (String × PropMeta α) →
    Option Int → Bool → Seqno →
    List (String × PropMeta α) × Option Int × Bool × Seqno
  | [], rec, seqno, merged, s => (rec, seqno, merged, s)
  | (prop, meta) :: rest, rec, seqno, merged, s =>
    let orig := Record.get rec prop
    if (match orig with
        | some o => decide (o.mtime ≥ meta.mtime)
        | none => false) then
      Directory.mergeLoop increment_seqno rest rec seqno merged s
    else
      Directory.mergeLoop increment_seqno rest
        (assocSet rec prop ⟨meta.mtime,
          (Directory.mergeSeqno increment_seqno orig seqno s).1, meta.value⟩)
        (Directory.mergeSeqno increment_seqno orig seqno s).2.1 true
        (Directory.mergeSeqno increment_seqno orig seqno s).2.2

/-- `Directory.merge(guid, diff, increment_seqno)` restricted to its
record mutation: the resulting record, the returned seqno, whether any
property was merged, and the updated counter (the re-indexing of a merged
consistent record does not change the stored record). -/
def Directory.merge {α : Type} (rec : List (String × PropMeta α))
    (diff : List (String × DiffMeta α)) (increment_seqno : Bool)
    (s : Seqno) :
    List (String × PropMeta α) × Option Int × Bool × Seqno :=
  Directory.mergeLoop increment_seqno diff rec none false s

theorem Record.get_assocSet_self {β : Type} :
    ∀ (rec : List (String × β)) (k : String) (v : β),
      Record.get (assocSet rec k v) k = some v := by
  intro rec k v
  induction rec with
  | nil => simp [assocSet, Record.get]
  | cons e rest ih =>
    obtain ⟨k', v'⟩ := e
    by_cases h : k' = k
    · simp only [assocSet, if_pos h, Record.get]
      rw [List.find?_cons_of_pos _ (by simp)]
      rfl
    · simp only [assocSet, if_neg h, Record.get]
      rw [List.find?_cons_of_neg _ (by simpa using h)]
      exact ih

theorem Record.get_assocSet_ne {β : Type} :
    ∀ (rec : List (String × β)) (k : String) (v : β) (p : String),
      p ≠ k → Record.get (assocSet rec k v) p = Record.get rec p := by
  intro rec k v p hp
  have hkp : ¬(k = p) := fun hh => hp hh.symm
  induction rec with
  | nil =>
    simp only [assocSet, Record.get, List.find?_nil]
    rw [List.find?_cons_of_neg _ (by simpa using hkp)]
    rfl
  | cons e rest ih =>
    obtain ⟨k', v'⟩ := e
    by_cases h : k' = k
    · have hk'p : ¬(k' = p) := by rw [h]; exact hkp
      simp only [assocSet, if_pos h, Record.get]
      rw [List.find?_cons_of_neg _ (by simpa using hkp),
        List.find?_cons_of_neg _ (by simpa using hk'p)]
    · simp only [assocSet, if_neg h, Record.get]
      by_cases h2 : k' = p
      · rw [List.find?_cons_of_pos _ (by simpa using h2),
          List.find?_cons_of_pos _ (by simpa using h2)]
      · rw [List.find?_cons_of_neg _ (by simpa using h2),
          List.find?_cons_of_neg _ (by simpa using h2)]
        exact ih

/-- Properties not named by the remaining diff keep their stored meta. -/
theorem Directory.mergeLoop_get_not_mem {α : Type} (inc : Bool) :
    ∀ (diff : List (String × DiffMeta α)) (rec : List (String × PropMeta α))
      (seqno : Option Int) (merged : Bool) (s : Seqno) (p : String),
      (∀ e ∈ diff, e.1 ≠ p) →
      Record.get (Directory.mergeLoop inc diff rec seqno merged s).1 p =
        Record.get rec p := by
  intro diff
  induction diff with
  | nil => intro rec seqno merged s p _; rfl
  | cons e rest ih =>
    intro rec seqno merged s p hp
    obtain ⟨prop, meta⟩ := e
    have hne : prop ≠ p := hp (prop, meta) (List.mem_cons_self _ _)
    have hrest : ∀ e ∈ rest, e.1 ≠ p :=
      fun e he => hp e (List.mem_cons_of_mem _ he)
    simp only [Directory.mergeLoop]
    by_cases hskip : (match Record.get rec prop with
        | some o => decide (o.mtime ≥ meta.mtime)
        | none => false) = true
    · rw [if_pos hskip, ih rec seqno merged s p hrest]
    · rw [if_neg hskip]
      rw [ih _ _ _ _ p hrest, Record.get_assocSet_ne rec prop _ p (Ne.symm hne)]

/-! ### Claim C2 -/

/-- C2, counterexample: on an mtime tie the stored value wins, not the
source.  A record storing `title` with `mtime = 5` merged against an
incoming `title` with the same `mtime = 5` keeps the stored value: the
incoming value is not written although the incoming mtime is greater than
or equal to the stored one. -/
theorem C2_counterexample :
    (5 : Int) ≥ 5 ∧
    Directory.merge [("title", (⟨5, 1, "old"⟩ : PropMeta String))]
      [("title", ⟨5, "new"⟩)] true ⟨0, 0⟩ =
      ([("title", ⟨5, 1, "old"⟩)], none, false, ⟨0, 0⟩) ∧
    ("old" : String) ≠ "new" :=
  ⟨by decide, rfl, by decide⟩

/-- C2 (amended): for every property in the diff (property names are
unique, as they come from a Python dictionary), `Directory.merge` writes
the incoming value iff no stored value exists or the incoming `mtime` is
strictly greater than the stored one; on an mtime tie (or an older
incoming mtime) the stored value is kept. -/
theorem C2_merge_last_writer_wins {α : Type} (inc : Bool) :
    ∀ (diff : List (String × DiffMeta α)) (rec : List (String × PropMeta α))
      (seqno : Option Int) (merged : Bool) (s : Seqno)
      (prop : String) (meta : DiffMeta α),
      (diff.map (·.1)).Nodup → (prop, meta) ∈ diff →
      (Record.get rec prop = none →
        ∃ sq, Record.get
            (Directory.mergeLoop inc diff rec seqno merged s).1 prop =
          some ⟨meta.mtime, sq, meta.value⟩) ∧
      (∀ orig, Record.get rec prop = some orig →
        (orig.mtime < meta.mtime →
          ∃ sq, Record.get
              (Directory.mergeLoop inc diff rec seqno merged s).1 prop =
            some ⟨meta.mtime, sq, meta.value⟩) ∧
        (meta.mtime ≤ orig.mtime →
          Record.get
              (Directory.mergeLoop inc diff rec seqno merged s).1 prop =
            some orig)) := by
  intro diff
  induction diff with
  | nil =>
    intro rec seqno merged s prop meta _ hmem
    simp at hmem
  | cons e rest ih =>
    intro rec seqno merged s prop meta hnodup hmem
    obtain ⟨p₀, m₀⟩ := e
    have hnodup' : (rest.map (·.1)).Nodup := (List.nodup_cons.mp hnodup).2
    rcases List.mem_cons.mp hmem with heq | hmem'
    · -- the property is the head of the diff
      injection heq with h1 h2
      subst h1
      subst h2
      have hrest : ∀ e ∈ rest, e.1 ≠ prop := by
        intro e he
        have := (List.nodup_cons.mp hnodup).1
        intro hcontra
        exact this (hcontra ▸ List.mem_map_of_mem (·.1) he)
      constructor
      · intro hnone
        simp only [Directory.mergeLoop, hnone]
        rw [if_neg (by simp)]
        refine ⟨(Directory.mergeSeqno inc (none : Option (PropMeta α)) seqno s).1, ?_⟩
        rw [Directory.mergeLoop_get_not_mem inc rest _ _ _ _ prop hrest,
          Record.get_assocSet_self]
      · intro orig horig
        constructor
        · intro hlt
          simp only [Directory.mergeLoop, horig]
          rw [if_neg (by simp; omega)]
          refine ⟨(Directory.mergeSeqno inc (some orig) seqno s).1, ?_⟩
          rw [Directory.mergeLoop_get_not_mem inc rest _ _ _ _ prop hrest,
            Record.get_assocSet_self]
        · intro hge
          simp only [Directory.mergeLoop, horig]
          rw [if_pos (by simp; omega)]
          rw [Directory.mergeLoop_get_not_mem inc rest _ _ _ _ prop hrest]
          exact horig
    · -- the property sits deeper in the diff
      have hne : p₀ ≠ prop := by
        intro hcontra
        subst hcontra
        exact (List.nodup_cons.mp hnodup).1 (List.mem_map_of_mem (·.1) hmem')
      simp only [Directory.mergeLoop]
      by_cases hskip : (match Record.get rec p₀ with
          | some o => decide (o.mtime ≥ m₀.mtime)
          | none => false) = true
      · rw [if_pos hskip]
        exact ih rec seqno merged s prop meta hnodup' hmem'
      · rw [if_neg hskip]
        have hpres := Record.get_assocSet_ne rec p₀
          ⟨m₀.mtime, (Directory.mergeSeqno inc (Record.get rec p₀) seqno s).1,
            m₀.value⟩ prop (Ne.symm hne)
        have := ih (assocSet rec p₀
            ⟨m₀.mtime, (Directory.mergeSeqno inc (Record.get rec p₀) seqno s).1,
              m₀.value⟩)
          (Directory.mergeSeqno inc (Record.get rec p₀) seqno s).2.1 true
          (Directory.mergeSeqno inc (Record.get rec p₀) seqno s).2.2
          prop meta hnodup' hmem'
        rw [hpres] at this
        exact this

/-- C2 witness: merging one incoming property into an empty record writes
the incoming value (no stored value exists). -/
theorem C2_witness :
    ∃ sq, Record.get
        (Directory.merge ([] : List (String × PropMeta String))
          [("title", ⟨5, "new"⟩)] true ⟨0, 0⟩).1 "title" =
      some ⟨5, sq, "new"⟩ :=
  (C2_merge_last_writer_wins true [("title", ⟨5, "new"⟩)] [] none false
    ⟨0, 0⟩ "title" ⟨5, "new"⟩ (by simp) (by simp)).1 rfl

/-! ## `active_document/directory.py` — `_GUID_RE` and the guid check of
`Directory.create` (claim C8) -/

/-- The character class of `_GUID_RE = re.compile('[a-zA-Z0-9_+-.]+$')`.
Inside a regex character class the unescaped `+-.` is a RANGE from `'+'`
(code 43) to `'.'` (code 46), so it admits `'+'`, `','`, `'-'` and
`'.'`. -/
def guidChar (c : Char) : Bool :=
  ('a' ≤ c && c ≤ 'z') || ('A' ≤ c && c ≤ 'Z') || ('0' ≤ c && c ≤ '9') ||
  c = '_' || ('+' ≤ c && c ≤ '.')

/-- `_GUID_RE.match(guid) is not None`: the pattern `[class]+$` matches at
the start of the string.  Since `'\n'` is outside the class and Python's
`$` also matches just before one trailing newline, the pattern matches iff
the string, after stripping a single trailing newline when present, is
non-empty and consists of class characters only. -/
def guidMatch (guid : String) : Bool :=
  let cs := guid.data
  let core := if cs.getLast? = some '\n' then cs.dropLast else cs
  !core.isEmpty && core.all guidChar

/-- The caller-supplied-guid validation of `Directory.create`:
`enforce(_GUID_RE.match(guid) is not None, 'Malformed GUID')`. -/
def Directory.createGuidCheck (guid : String) : Except String Unit :=
  if guidMatch guid then Except.ok () else Except.error "Malformed GUID"

/-! ### Claim C8 -/

/-- C8: `Directory.create` accepts the guid `"a,b"` although `','` lies
outside the documented set `A-Z a-z 0-9 _ + - .` — the unescaped `-` in
the class `[a-zA-Z0-9_+-.]` forms the range `+-.` which also admits the
comma, so the code does not reject every guid containing a character
outside the documented set. -/
theorem C8_guid_comma_accepted :
    Directory.createGuidCheck "a,b" = Except.ok () ∧
    ',' ∈ "a,b".data ∧
    ¬(('A' ≤ ',' ∧ ',' ≤ 'Z') ∨ ('a' ≤ ',' ∧ ',' ≤ 'z') ∨
      ('0' ≤ ',' ∧ ',' ≤ '9') ∨ ',' = '_' ∨ ',' = '+' ∨ ',' = '-' ∨
      ',' = '.') :=
  ⟨rfl, by decide, by decide⟩

/-! ## `active_document/commands.py` — `CommandsProcessor.resolve`

Requests are dictionaries; key presence is modelled with `Option`.
Commands themselves are opaque (type `κ`): `resolve` only looks at the
registry keys. -/

/-- The request fields `resolve` reads: `request.get('method', 'GET')`,
`request.get('cmd')`, `'document' in request` / `request['document']`,
`'guid' in request`, `'prop' in request`. -/
structure AdRequest where
  method : Option String
  cmd : Option String
  document : Option String
  guid : Option String
  prop : Option String

/-- A `_Commands` registry: `(method, cmd, document)` key → command. -/
def regGet {κ : Type} (cmds : List ((String × Option String × Option String) × κ))
    (key : String × Option String × Option String) : Option κ :=
  (cmds.find? (fun e => e.1 = key)).map (·.2)

/-- The four scope registries of a `CommandsProcessor`
(`self._commands['volume'|'directory'|'document'|'property']`). -/
structure CommandsProcessor (κ : Type) where
  volume : List ((String × Option String × Option String) × κ)
  directory : List ((String × Option String × Option String) × κ)
  document : List ((String × Option String × Option String) × κ)
  property : List ((String × Option String × Option String) × κ)

/-- `CommandsProcessor.resolve`: volume scope when no document is named;
otherwise directory / document / property scope depending on `guid` and
`prop`, each resolved as `commands.get(key) or commands.get(document_key)`
(command objects are always truthy, so Python's `or` is `Option.orElse`).
`key` carries no document name; `document_key` carries the request's. -/
def CommandsProcessor.resolve {κ : Type} (cp : CommandsProcessor κ)
    (r : AdRequest) : Option κ :=
  let key := (r.method.getD "GET", r.cmd, (none : Option String))
  match r.document with
  | none => regGet cp.volume key
  | some doc =>
    let document_key := (key.1, key.2.1, some doc)
    if r.guid = none then
      (regGet cp.directory key).orElse (fun _ => regGet cp.directory document_key)
    else if r.prop = none then
      (regGet cp.document key).orElse (fun _ => regGet cp.document document_key)
    else
      (regGet cp.property key).orElse (fun _ => regGet cp.property document_key)

/-! ### Claim C5 -/

/-- C5, counterexample: with both a generic directory-scope entry
(command 1) and a class-specific one for document `"context"`
(command 2) registered, a directory-scope request for `"context"`
resolves to the GENERIC entry, not the class-specific one: the source
evaluates `commands.get(key) or commands.get(document_key)`, generic
first. -/
theorem C5_counterexample :
    CommandsProcessor.resolve
      (⟨[], [(("GET", none, none), 1), (("GET", none, some "context"), 2)],
        [], []⟩ : CommandsProcessor Nat)
      ⟨none, none, some "context", none, none⟩ = some 1 ∧
    regGet [(("GET", (none : Option String), (none : Option String)), 1),
        (("GET", none, some "context"), 2)]
      ("GET", none, some "context") = some 2 ∧
    (1 : Nat) ≠ 2 :=
  ⟨rfl, rfl, by decide⟩

/-- C5 (amended): for directory, document and property scopes,
`CommandsProcessor.resolve` tries the GENERIC registry entry (keyed with
no document name) first, and falls back to the class-specific entry
(keyed with the request's document name) only when no generic entry
exists. -/
theorem C5_resolve_generic_first {κ : Type} (cp : CommandsProcessor κ)
    (r : AdRequest) (doc : String) (hdoc : r.document = some doc) :
    (∀ c, r.guid = none →
      regGet cp.directory (r.method.getD "GET", r.cmd, none) = some c →
      CommandsProcessor.resolve cp r = some c) ∧
    (r.guid = none →
      regGet cp.directory (r.method.getD "GET", r.cmd, none) = none →
      CommandsProcessor.resolve cp r =
        regGet cp.directory (r.method.getD "GET", r.cmd, some doc)) ∧
    (∀ c, r.guid ≠ none → r.prop = none →
      regGet cp.document (r.method.getD "GET", r.cmd, none) = some c →
      CommandsProcessor.resolve cp r = some c) ∧
    (r.guid ≠ none → r.prop = none →
      regGet cp.document (r.method.getD "GET", r.cmd, none) = none →
      CommandsProcessor.resolve cp r =
        regGet cp.document (r.method.getD "GET", r.cmd, some doc)) ∧
    (∀ c, r.guid ≠ none → r.prop ≠ none →
      regGet cp.property (r.method.getD "GET", r.cmd, none) = some c →
      CommandsProcessor.resolve cp r = some c) ∧
    (r.guid ≠ none → r.prop ≠ none →
      regGet cp.property (r.method.getD "GET", r.cmd, none) = none →
      CommandsProcessor.resolve cp r =
        regGet cp.property (r.method.getD "GET", r.cmd, some doc)) := by
  refine ⟨?_, ?_, ?_, ?_, ?_, ?_⟩
  · intro c hg hget
    simp [CommandsProcessor.resolve, hdoc, hg, hget, Option.orElse]
  · intro hg hget
    simp [CommandsProcessor.resolve, hdoc, hg, hget, Option.orElse]
  · intro c hg hp hget
    simp [CommandsProcessor.resolve, hdoc, hg, hp, hget, Option.orElse]
  · intro hg hp hget
    simp [CommandsProcessor.resolve, hdoc, hg, hp, hget, Option.orElse]
  · intro c hg hp hget
    simp [CommandsProcessor.resolve, hdoc, hg, hp, hget, Option.orElse]
  · intro hg hp hget
    simp [CommandsProcessor.resolve, hdoc, hg, hp, hget, Option.orElse]

/-- C5 witness: with only the class-specific entry registered, the
directory-scope request falls back to it. -/
theorem C5_witness :
    CommandsProcessor.resolve
      (⟨[], [(("GET", none, some "context"), 2)], [], []⟩ :
        CommandsProcessor Nat)
      ⟨none, none, some "context", none, none⟩ = some 2 :=
  ((C5_resolve_generic_first
      (⟨[], [(("GET", none, some "context"), 2)], [], []⟩ :
        CommandsProcessor Nat)
      ⟨none, none, some "context", none, none⟩ "context" rfl).2.1
    rfl rfl).trans rfl

/-! ## `active_document/volume.py` — `VolumeCommands.create` (claim C10)

Access bits from `active_document/env.py`. -/

def env.ACCESS_CREATE : Nat := 1
def env.ACCESS_WRITE : Nat := 2
def env.ACCESS_READ : Nat := 4

/-- Error kinds raised along the create path. -/
inductive AdError where
  | forbidden
  | notFound
  | runtimeError
deriving DecidableEq, Repr

/-- A property descriptor as `VolumeCommands._post` consults it on the
create path: its access permissions, whether it is a `BlobProperty`, and
its `decode` (which raises - `none` - on an invalid value).  The `guid`
property registered by `Directory.__init__` is
`ActiveProperty('guid', permissions=ACCESS_CREATE | ACCESS_READ, slot=0,
prefix=GUID_PREFIX)`: not a BLOB, `typecast` `None`, so its `decode`
returns the value unchanged.  (`on_set` hooks and localized wrapping only
reshape the value and never remove a key from `doc.props`; `guid` carries
neither.) -/
structure PropDesc (α : Type) where
  permissions : Nat
  isBlob : Bool
  decodes : α → Option α

/-- `Property.assert_access(mode)`:
`enforce(mode & self.permissions, Forbidden, ...)`. -/
def PropDesc.assertAccess {α : Type} (p : PropDesc α) (mode : Nat) :
    Except AdError Unit :=
  if mode &&& p.permissions != 0 then Except.ok () else Except.error .forbidden

/-- The `for name, value in request.content.items()` loop of
`VolumeCommands._post` on the create path (`access = ACCESS_CREATE`, so
the BLOB-under-update special case is dead): look the property up in the
metadata (`Metadata.__getitem__` raises `NotFound` on a foreign name),
assert `ACCESS_CREATE`, collect BLOB values aside, and decode the rest
into `doc.props` (a failing decode raises `RuntimeError`). -/
def VolumeCommands.postCreateLoop {α : Type}
    (metadata : List (String × PropDesc α)) :
    List (String × α) → List (String × α) → List (String × α) →
    Except AdError (List (String × α) × List (String × α))
  | [], props, blobs => Except.ok (props, blobs)
  | (name, value) :: rest, props, blobs =>
    match Record.get metadata name with
    | none => Except.error .notFound
    | some prop =>
      match prop.assertAccess env.ACCESS_CREATE with
      | Except.error e => Except.error e
      | Except.ok _ =>
        if prop.isBlob then
          VolumeCommands.postCreateLoop metadata rest props
            (blobs ++ [(name, value)])
        else
          match prop.decodes value with
          | none => Except.error .runtimeError
          | some v =>
            VolumeCommands.postCreateLoop metadata rest
              (assocSet props name v) blobs

/-- `VolumeCommands.create`: build `doc.props` via `_post`, then
`enforce('guid' not in doc.props, Forbidden, "Property 'guid' cannot be
set manually")`; only past that guard does `directory.create(doc.props)`
run, so an `ok` result means a document was created and an `error` means
the volume is untouched. -/
def VolumeCommands.create {α : Type} (metadata : List (String × PropDesc α))
    (content : List (String × α)) :
    Except AdError (List (String × α)) :=
  match VolumeCommands.postCreateLoop metadata content [] [] with
  | Except.error e => Except.error e
  | Except.ok (props, _blobs) =>
    if (Record.get props "guid").isSome then Except.error .forbidden
    else Except.ok props

/-- The `guid` descriptor registered by `Directory.__init__`. -/
def guidPropDesc (α : Type) : PropDesc α :=
  { permissions := env.ACCESS_CREATE ||| env.ACCESS_READ,
    isBlob := false,
    decodes := some }

/-- If the remaining content names `guid` (or the accumulator already
holds it), a successful `_post` loop leaves `guid` in `doc.props`. -/
theorem VolumeCommands.postCreateLoop_guid {α : Type}
    (metadata : List (String × PropDesc α)) (v₀ : α)
    (hguid : Record.get metadata "guid" = some (guidPropDesc α)) :
    ∀ (content props blobs : List (String × α))
      (res : List (String × α) × List (String × α)),
      (("guid", v₀) ∈ content ∨ (Record.get props "guid").isSome) →
      VolumeCommands.postCreateLoop metadata content props blobs =
        Except.ok res →
      (Record.get res.1 "guid").isSome := by
  intro content
  induction content with
  | nil =>
    intro props blobs res hin hok
    rcases hin with hin | hin
    · simp at hin
    · simp only [VolumeCommands.postCreateLoop] at hok
      injection hok with hok
      rw [← hok]
      exact hin
  | cons e rest ih =>
    intro props blobs res hin hok
    obtain ⟨name, value⟩ := e
    by_cases hname : name = "guid"
    · subst hname
      simp [VolumeCommands.postCreateLoop, hguid, guidPropDesc,
        PropDesc.assertAccess, env.ACCESS_CREATE, env.ACCESS_READ] at hok
      refine ih (assocSet props "guid" value) blobs res (Or.inr ?_) hok
      rw [Record.get_assocSet_self]
      rfl
    · have hin' : ("guid", v₀) ∈ rest ∨ (Record.get props "guid").isSome := by
        rcases hin with hin | hin
        · rcases List.mem_cons.mp hin with heq | htl
          · exact absurd (congrArg Prod.fst heq).symm hname
          · exact Or.inl htl
        · exact Or.inr hin
      match hmd : Record.get metadata name with
      | none =>
        simp [VolumeCommands.postCreateLoop, hmd] at hok
      | some prop =>
        simp only [VolumeCommands.postCreateLoop] at hok
        rw [hmd] at hok
        simp only [] at hok
        match hacc : prop.assertAccess env.ACCESS_CREATE with
        | Except.error e =>
          simp [hacc] at hok
        | Except.ok u =>
          simp only [hacc] at hok
          by_cases hblob : prop.isBlob = true
          · rw [if_pos hblob] at hok
            exact ih props _ res hin' hok
          · rw [if_neg hblob] at hok
            match hdec : prop.decodes value with
            | none =>
              simp [hdec] at hok
            | some v' =>
              simp only [hdec] at hok
              refine ih (assocSet props name v') blobs res ?_ hok
              rcases hin' with hin' | hin'
              · exact Or.inl hin'
              · refine Or.inr ?_
                rw [Record.get_assocSet_ne props name v' "guid"
                  (fun hc => hname hc.symm)]
                exact hin'

/-! ### Claim C10 -/

/-- C10: when the decoded request content of a create carries a `guid`
key, `VolumeCommands.create` never succeeds, and whenever the `_post`
property loop itself goes through, the failure is precisely `Forbidden`
("Property 'guid' cannot be set manually") raised before
`directory.create` runs — so the volume state is unchanged. -/
theorem C10_create_guid_forbidden {α : Type}
    (metadata : List (String × PropDesc α)) (content : List (String × α))
    (v : α)
    (hguid : Record.get metadata "guid" = some (guidPropDesc α))
    (hmem : ("guid", v) ∈ content) :
    (∀ props, VolumeCommands.create metadata content ≠ Except.ok props) ∧
    ((∃ res, VolumeCommands.postCreateLoop metadata content [] [] =
        Except.ok res) →
      VolumeCommands.create metadata content = Except.error .forbidden) := by
  constructor
  · intro props hok
    match hloop : VolumeCommands.postCreateLoop metadata content [] [] with
    | Except.error e =>
      rw [VolumeCommands.create] at hok
      simp [hloop] at hok
    | Except.ok res =>
      obtain ⟨p1, p2⟩ := res
      have hg := VolumeCommands.postCreateLoop_guid metadata v hguid content
        [] [] (p1, p2) (Or.inl hmem) hloop
      simp only at hg
      rw [VolumeCommands.create] at hok
      simp [hloop, hg] at hok
  · rintro ⟨res, hloop⟩
    obtain ⟨p1, p2⟩ := res
    have hg := VolumeCommands.postCreateLoop_guid metadata v hguid content
      [] [] (p1, p2) (Or.inl hmem) hloop
    simp only at hg
    rw [VolumeCommands.create]
    simp [hloop, hg]

/-- C10 witness: metadata holding only the standard `guid` descriptor,
content `{"guid": "x"}`: the create fails with `Forbidden`. -/
theorem C10_witness :
    VolumeCommands.create [("guid", guidPropDesc String)] [("guid", "x")] =
      Except.error .forbidden :=
  (C10_create_guid_forbidden [("guid", guidPropDesc String)]
      [("guid", "x")] "x" rfl (by simp)).2
    ⟨([("guid", "x")], []), rfl⟩

/-! ## `sugar_network/node/sync_master.py` — `SyncCommands.push` (claim C9)

Incoming records, as `InPacket.records` delivers them (each merged with
the packet header, whose `dst` equals the master's GUID once the header
guards passed, so the `dst=self._guid` filter drops nothing).  The result
of `self.volume.merge(record)` for the `j`-th record is supplied by the
oracle `mergeFn` (`none` models a merge that accepted nothing and
returned `None`). -/

inductive SyncRecord where
  | snPush
  | snCommit (sequence : List (Option Int × Option Int))
  | snPull (sequence : List (Option Int × Option Int))
  | filesPull (directory : String) (sequence : List (Option Int × Option Int))
  | statsPush (user db : String) (sequence : List (Option Int × Option Int))
deriving DecidableEq, Repr

/-- `_Cookie.__getitem__`: a missing key denotes a fresh empty
`Sequence`. -/
def Cookie.get (c : List (String × List SRange)) (k : String) : List SRange :=
  ((c.find? (fun e => e.1 = k)).map (·.2)).getD []

/-- State accumulated by the record loop of `SyncCommands.push`. -/
structure PushState where
  pushed : List SRange
  merged : List SRange
  cookie : List (String × List SRange)
  statsPushed : Bool
deriving Repr

/-- The `for record in in_packet.records(dst=self._guid)` loop of
`SyncCommands.push`: `sn_push` merges into the volume and includes the
returned seqno into `merged` (`include(None, None)` is a no-op when the
merge accepted nothing); `sn_commit` includes its `sequence` into
`pushed`; `sn_pull` and `files_pull` grow the cookie; `stats_push`
forwards to the stats sink (external) and marks `stats_pushed`. -/
def SyncCommands.pushLoop (mergeFn : Nat → Option Int) :
    List SyncRecord → Nat → PushState → PushState
  | [], _, st => st
  | r :: rest, i, st =>
    match r with
    | .snPush =>
      let merged' := match mergeFn i with
        | some seqno => Sequence.includeRange st.merged seqno (some seqno)
        | none => st.merged
      SyncCommands.pushLoop mergeFn rest (i + 1) { st with merged := merged' }
    | .snCommit seq =>
      SyncCommands.pushLoop mergeFn rest (i + 1)
        { st with pushed := Sequence.includeSeq st.pushed seq }
    | .snPull seq =>
      let c := assocSet st.cookie "sn_pull"
        (Sequence.includeSeq (Cookie.get st.cookie "sn_pull") seq)
      SyncCommands.pushLoop mergeFn rest (i + 1) { st with cookie := c }
    | .filesPull dir seq =>
      let c := assocSet st.cookie dir
        (Sequence.includeSeq (Cookie.get st.cookie dir) seq)
      SyncCommands.pushLoop mergeFn rest (i + 1) { st with cookie := c }
    | .statsPush _ _ _ =>
      SyncCommands.pushLoop mergeFn rest (i + 1) { st with statsPushed := true }

/-- `SyncCommands.push`: the header guards
(`enforce('src' in header and src != guid)`,
`enforce('dst' in header and dst == guid)`, both failing with
"Misaddressed packet"), the record loop, and
`enforce(not merged or pushed, '"sn_push" record without "sn_commit"')`.
On success the acknowledgement packet carries an `sn_ack` record
(`sequence = pushed`, `merged = merged`) iff `pushed` is non-empty
(`stats_ack` is the external stats sink's concern); on an `enforce`
failure the exception propagates and no acknowledgement packet is
returned (`Except.error` carries none by construction). -/
def SyncCommands.push (guid : String) (src dst : Option String)
    (records : List SyncRecord) (mergeFn : Nat → Option Int) :
    Except String (Option (List SRange × List SRange)) :=
  match src with
  | none => Except.error "Misaddressed packet"
  | some s =>
    if s = guid then Except.error "Misaddressed packet"
    else
      match dst with
      | none => Except.error "Misaddressed packet"
      | some d =>
        if d = guid then
          let st := SyncCommands.pushLoop mergeFn records 0 ⟨[], [], [], false⟩
          if !st.merged.isEmpty && st.pushed.isEmpty then
            Except.error "\"sn_push\" record without \"sn_commit\""
          else
            Except.ok (if !st.pushed.isEmpty then
              some (st.pushed, st.merged) else none)
        else Except.error "Misaddressed packet"

/-- `_include` always returns a non-empty list. -/
theorem Sequence._include_ne_nil (a : Int) (b : Option Int) :
    ∀ seq : List SRange, Sequence._include seq a b ≠ [] := by
  have hext : ∀ (rest : List SRange) (m : Int) (cur : SRange),
      Sequence.includeExtend m b cur rest ≠ [] := by
    intro rest
    induction rest with
    | nil => intro m cur; simp [Sequence.includeExtend]
    | cons r rest' ih =>
      intro m cur
      obtain ⟨s, e⟩ := r
      simp only [Sequence.includeExtend]
      split
      · simp
      · exact ih m (s, e)
  intro seq
  induction seq with
  | nil => simp [Sequence._include]
  | cons r rest ih =>
    obtain ⟨s, e⟩ := r
    simp only [Sequence._include]
    split
    · simp
    · split
      · exact hext rest (min s a) (s, e)
      · simp

/-- The record loop never empties a non-empty `merged` sequence. -/
theorem SyncCommands.pushLoop_merged_ne (mergeFn : Nat → Option Int) :
    ∀ (records : List SyncRecord) (i : Nat) (st : PushState),
      st.merged ≠ [] →
      (SyncCommands.pushLoop mergeFn records i st).merged ≠ [] := by
  intro records
  induction records with
  | nil => intro i st h; exact h
  | cons r rest ih =>
    intro i st h
    match r with
    | .snPush =>
      simp only [SyncCommands.pushLoop]
      match mergeFn i with
      | some seqno => exact ih (i + 1) _ (Sequence._include_ne_nil seqno (some seqno) st.merged)
      | none => exact ih (i + 1) _ h
    | .snCommit seq => exact ih (i + 1) _ h
    | .snPull seq => exact ih (i + 1) _ h
    | .filesPull dir seq => exact ih (i + 1) _ h
    | .statsPush u d seq => exact ih (i + 1) _ h

/-- Without any `sn_commit` record the loop leaves `pushed` untouched. -/
theorem SyncCommands.pushLoop_pushed_no_commit (mergeFn : Nat → Option Int) :
    ∀ (records : List SyncRecord) (i : Nat) (st : PushState),
      (∀ r ∈ records, ∀ sq, r ≠ SyncRecord.snCommit sq) →
      (SyncCommands.pushLoop mergeFn records i st).pushed = st.pushed := by
  intro records
  induction records with
  | nil => intro i st _; rfl
  | cons r rest ih =>
    intro i st h
    have hrest : ∀ r ∈ rest, ∀ sq, r ≠ SyncRecord.snCommit sq :=
      fun r hr => h r (List.mem_cons_of_mem _ hr)
    match r with
    | .snPush =>
      simp only [SyncCommands.pushLoop]
      match mergeFn i with
      | some seqno => exact ih (i + 1) _ hrest
      | none => exact ih (i + 1) _ hrest
    | .snCommit seq =>
      exact absurd rfl (h (SyncRecord.snCommit seq) (List.mem_cons_self _ _) seq)
    | .snPull seq => exact ih (i + 1) _ hrest
    | .filesPull dir seq => exact ih (i + 1) _ hrest
    | .statsPush u d seq => exact ih (i + 1) _ hrest

/-- An `sn_push` record whose merge returned a seqno leaves `merged`
non-empty at the end of the loop. -/
theorem SyncCommands.pushLoop_merged_of_push (mergeFn : Nat → Option Int) :
    ∀ (records : List SyncRecord) (j i : Nat) (st : PushState) (n : Int),
      records.get? j = some SyncRecord.snPush → mergeFn (i + j) = some n →
      (SyncCommands.pushLoop mergeFn records i st).merged ≠ [] := by
  intro records
  induction records with
  | nil => intro j i st n hj _; simp at hj
  | cons r rest ih =>
    intro j i st n hj hn
    match j with
    | 0 =>
      simp only [List.get?_cons_zero, Option.some.injEq] at hj
      subst hj
      simp only [Nat.add_zero] at hn
      simp only [SyncCommands.pushLoop, hn]
      exact SyncCommands.pushLoop_merged_ne mergeFn rest (i + 1) _
        (Sequence._include_ne_nil n (some n) st.merged)
    | j' + 1 =>
      simp only [List.get?_cons_succ] at hj
      have hn' : mergeFn ((i + 1) + j') = some n := by
        rw [show (i + 1) + j' = i + (j' + 1) by omega]; exact hn
      match r with
      | .snPush =>
        simp only [SyncCommands.pushLoop]
        match mergeFn i with
        | some seqno => exact ih j' (i + 1) _ n hj hn'
        | none => exact ih j' (i + 1) _ n hj hn'
      | .snCommit seq => exact ih j' (i + 1) _ n hj hn'
      | .snPull seq => exact ih j' (i + 1) _ n hj hn'
      | .filesPull dir seq => exact ih j' (i + 1) _ n hj hn'
      | .statsPush u d seq => exact ih j' (i + 1) _ n hj hn'

/-! ### Claim C9 -/

/-- C9: the master's POST push fails with "Misaddressed packet" when the
header's `src` is missing or equals the master's own GUID, and when the
header's `dst` is missing or differs from it; and it fails with the
`sn_push`-without-`sn_commit` error when some `sn_push` record was merged
(the volume merge returned a seqno) but the packet contains no
`sn_commit` record.  An `Except.error` result carries no acknowledgement
packet. -/
theorem C9_push_guards (guid : String) (src dst : Option String)
    (records : List SyncRecord) (mergeFn : Nat → Option Int) :
    ((src = none ∨ src = some guid) →
      SyncCommands.push guid src dst records mergeFn =
        Except.error "Misaddressed packet") ∧
    (∀ s, src = some s → s ≠ guid → dst ≠ some guid →
      SyncCommands.push guid src dst records mergeFn =
        Except.error "Misaddressed packet") ∧
    (∀ s, src = some s → s ≠ guid → dst = some guid →
      (∀ r ∈ records, ∀ sq, r ≠ SyncRecord.snCommit sq) →
      (∃ j n, records.get? j = some SyncRecord.snPush ∧
        mergeFn j = some n) →
      SyncCommands.push guid src dst records mergeFn =
        Except.error "\"sn_push\" record without \"sn_commit\"") := by
  refine ⟨?_, ?_, ?_⟩
  · rintro (hsrc | hsrc) <;> subst hsrc
    · rfl
    · simp [SyncCommands.push]
  · intro s hsrc hs hdst
    subst hsrc
    match dst with
    | none => simp [SyncCommands.push, hs]
    | some d =>
      have hd : ¬(d = guid) := fun hc => hdst (by rw [hc])
      simp [SyncCommands.push, hs, hd]
  · rintro s hsrc hs hdst hnocommit ⟨j, n, hj, hn⟩
    subst hsrc
    subst hdst
    have hmerged := SyncCommands.pushLoop_merged_of_push mergeFn records j 0
      ⟨[], [], [], false⟩ n hj (by simpa using hn)
    have hpushed := SyncCommands.pushLoop_pushed_no_commit mergeFn records 0
      ⟨[], [], [], false⟩ hnocommit
    have hm : (SyncCommands.pushLoop mergeFn records 0
        ⟨[], [], [], false⟩).merged.isEmpty = false := by
      rcases hh : (SyncCommands.pushLoop mergeFn records 0
          ⟨[], [], [], false⟩).merged with - | ⟨a, l⟩
      · exact absurd hh hmerged
      · rfl
    have hp : (SyncCommands.pushLoop mergeFn records 0
        ⟨[], [], [], false⟩).pushed.isEmpty = true := by
      rw [hpushed]; rfl
    simp [SyncCommands.push, hs, hm, hp]

/-- C9 witness: a packet from `"node"` to master `"master"` holding one
merged `sn_push` and no `sn_commit` is rejected. -/
theorem C9_witness :
    SyncCommands.push "master" (some "node") (some "master")
      [SyncRecord.snPush] (fun _ => some 7) =
      Except.error "\"sn_push\" record without \"sn_commit\"" :=
  (C9_push_guards "master" (some "node") (some "master")
      [SyncRecord.snPush] (fun _ => some 7)).2.2 "node" rfl (by decide) rfl
    (by intro r hr sq; simp at hr; subst hr; simp)
    ⟨0, 7, rfl, rfl⟩

/-! ## `active_document/index_proxy.py` — `_CachedPage.find` (claim C6)

Documents are `(guid, properties)` pairs; properties are string-keyed
dictionaries over an abstract value type `β`.  The cache page state is
taken as `_patch_find`'s output `(adds, deletes, updates)`: `adds` the
cached documents to append, `deletes` the GUIDs to drop, `updates` the
property overrides per GUID.  `direct_find` (the underlying on-disk
query) is an arbitrary function from the issued limit to a result list
and a total estimate. -/

/-- Python `dict.update`: apply every key of the second dictionary. -/
def dictUpdate {β : Type} (d u : List (String × β)) : List (String × β) :=
  u.foldl (fun acc e => assocSet acc e.1 e.2) d

/-- The `for guid, props in documents` part of `patched_find`: stop once
`orig_limit < 1`; drop deleted GUIDs, decrementing the running total;
overlay property overrides for updated GUIDs; count every yield against
`orig_limit`.  Returns the yielded documents, the remaining `orig_limit`
and the updated total. -/
def CachedPage.patchedFindDocs {β : Type} (deletes : List String)
    (updates : List (String × List (String × β))) :
    Int → List (String × List (String × β)) → Int →
    List (String × List (String × β)) × Int × Int
  | lim, [], total => ([], lim, total)
  | lim, (guid, props) :: rest, total =>
    if lim < 1 then ([], lim, total)
    else if guid ∈ deletes then
      CachedPage.patchedFindDocs deletes updates lim rest (total - 1)
    else
      let props' := match Record.get updates guid with
        | some cprops => dictUpdate props cprops
        | none => props
      let r := CachedPage.patchedFindDocs deletes updates (lim - 1) rest total
      ((guid, props') :: r.1, r.2)

/-- The `for doc in adds` part of `patched_find`. -/
def CachedPage.patchedFindAdds {β : Type} :
    Int → List (String × List (String × β)) →
    List (String × List (String × β))
  | _, [] => []
  | lim, d :: rest =>
    if lim < 1 then [] else d :: CachedPage.patchedFindAdds (lim - 1) rest

/-- `_CachedPage.find` for a query without a `guid` filter (the
`'guid' in query.request` short-circuit is a different code path): when
the page patch is entirely empty the query goes straight to the on-disk
index with the original limit; otherwise the on-disk query is issued with
`query.limit += len(deletes)`, the total is bumped by `len(adds)`, and
`patched_find` streams the results.  Returns the yielded documents, the
final `total.value` after the stream is exhausted, and the limit the
on-disk query was issued with. -/
def CachedPage.find {β : Type} (adds : List (String × List (String × β)))
    (deletes : List String) (updates : List (String × List (String × β)))
    (directFind : Int → List (String × List (String × β)) × Int)
    (limit : Int) :
    List (String × List (String × β)) × Int × Int :=
  if adds.isEmpty && deletes.isEmpty && updates.isEmpty then
    let r := directFind limit
    (r.1, r.2, limit)
  else
    let directLimit := limit + deletes.length
    let r := directFind directLimit
    let total₁ := r.2 + adds.length
    let d := CachedPage.patchedFindDocs deletes updates limit r.1 total₁
    (d.1 ++ CachedPage.patchedFindAdds d.2.1 adds, d.2.2, directLimit)

/-- Bookkeeping of the `documents` phase: the remaining limit stays
non-negative, yields consume it exactly, and the total decreases by the
number of deleted GUIDs in the consumed prefix of the stream. -/
theorem CachedPage.patchedFindDocs_spec {β : Type} (deletes : List String)
    (updates : List (String × List (String × β))) :
    ∀ (docs : List (String × List (String × β))) (lim total : Int),
      0 ≤ lim →
      0 ≤ (CachedPage.patchedFindDocs deletes updates lim docs total).2.1 ∧
      ((CachedPage.patchedFindDocs deletes updates lim docs total).1.length : Int) =
        lim - (CachedPage.patchedFindDocs deletes updates lim docs total).2.1 ∧
      ∃ k ≤ docs.length,
        (CachedPage.patchedFindDocs deletes updates lim docs total).2.2 =
          total - ((docs.take k).countP (fun d => decide (d.1 ∈ deletes))) := by
  intro docs
  induction docs with
  | nil =>
    intro lim total hlim
    exact ⟨hlim, by simp [CachedPage.patchedFindDocs],
      ⟨0, by simp, by simp [CachedPage.patchedFindDocs]⟩⟩
  | cons d rest ih =>
    intro lim total hlim
    obtain ⟨guid, props⟩ := d
    by_cases hbrk : lim < 1
    · refine ⟨?_, ?_, ⟨0, by simp, ?_⟩⟩ <;>
        simp [CachedPage.patchedFindDocs, hbrk, hlim]
    · by_cases hdel : guid ∈ deletes
      · obtain ⟨h1, h2, k, hk, h3⟩ := ih lim (total - 1) hlim
        refine ⟨?_, ?_, ⟨k + 1, by simpa using hk, ?_⟩⟩ <;>
          simp only [CachedPage.patchedFindDocs, if_neg hbrk, if_pos hdel,
            List.take_succ_cons, List.countP_cons]
        · exact h1
        · exact h2
        · rw [h3]
          simp [hdel]
          omega
      · obtain ⟨h1, h2, k, hk, h3⟩ := ih (lim - 1) total (by omega)
        refine ⟨?_, ?_, ⟨k + 1, by simpa using hk, ?_⟩⟩ <;>
          simp only [CachedPage.patchedFindDocs, if_neg hbrk, if_neg hdel,
            List.take_succ_cons, List.countP_cons, List.length_cons]
        · exact h1
        · push_cast
          omega
        · rw [h3]
          simp [hdel]

/-- The `adds` phase yields at most the remaining limit. -/
theorem CachedPage.patchedFindAdds_len {β : Type} :
    ∀ (adds : List (String × List (String × β))) (lim : Int),
      ((CachedPage.patchedFindAdds lim adds).length : Int) ≤ max lim 0 := by
  intro adds
  induction adds with
  | nil => intro lim; simp [CachedPage.patchedFindAdds]
  | cons d rest ih =>
    intro lim
    by_cases hbrk : lim < 1
    · simp [CachedPage.patchedFindAdds, hbrk]
    · simp only [CachedPage.patchedFindAdds, if_neg hbrk, List.length_cons]
      have := ih (lim - 1)
      push_cast
      omega

/-! ### Claim C6 -/

/-- C6: for a query with limit `L ≥ 0` (offset 0) through the overlay of
a cache page `(adds, deletes, updates)`, when the on-disk query honours
its limit, the result stream yields at most `L` documents; whenever the
page patch is non-empty the on-disk query is issued with limit
`L + len(deletes)` and the reported total is the on-disk total plus
`len(adds)` minus the number of deleted GUIDs actually dropped from the
consumed prefix of the stream; with an empty patch the query passes
through unchanged. -/
theorem C6_overlay_find {β : Type}
    (adds : List (String × List (String × β))) (deletes : List String)
    (updates : List (String × List (String × β)))
    (directFind : Int → List (String × List (String × β)) × Int)
    (L : Int) (hL : 0 ≤ L)
    (hdf : ∀ l, 0 ≤ l → (((directFind l).1).length : Int) ≤ l) :
    (((CachedPage.find adds deletes updates directFind L).1.length : Int) ≤ L) ∧
    (¬(adds = [] ∧ deletes = [] ∧ updates = []) →
      (CachedPage.find adds deletes updates directFind L).2.2 =
        L + deletes.length ∧
      ∃ k ≤ (directFind (L + deletes.length)).1.length,
        (CachedPage.find adds deletes updates directFind L).2.1 =
          (directFind (L + deletes.length)).2 + adds.length -
            (((directFind (L + deletes.length)).1.take k).countP
              (fun d => decide (d.1 ∈ deletes)))) ∧
    ((adds = [] ∧ deletes = [] ∧ updates = []) →
      CachedPage.find adds deletes updates directFind L =
        ((directFind L).1, (directFind L).2, L)) := by
  by_cases hempty : adds = [] ∧ deletes = [] ∧ updates = []
  · obtain ⟨h1, h2, h3⟩ := hempty
    subst h1; subst h2; subst h3
    refine ⟨by simpa using hdf L hL, fun h => absurd ⟨rfl, rfl, rfl⟩ h,
      fun _ => by simp [CachedPage.find]⟩
  · have hbool : (adds.isEmpty && deletes.isEmpty && updates.isEmpty) = false := by
      rcases not_and_or.mp hempty with h | h
      · simp [List.isEmpty_iff, h]
      rcases not_and_or.mp h with h | h <;> simp [List.isEmpty_iff, h]
    have hfind : CachedPage.find adds deletes updates directFind L =
        (let directLimit := L + deletes.length
         let r := directFind directLimit
         let total₁ := r.2 + adds.length
         let d := CachedPage.patchedFindDocs deletes updates L r.1 total₁
         (d.1 ++ CachedPage.patchedFindAdds d.2.1 adds, d.2.2, directLimit)) := by
      rw [CachedPage.find, if_neg (by simp [hbool])]
    obtain ⟨hge, hlen, k, hk, htot⟩ :=
      CachedPage.patchedFindDocs_spec deletes updates
        (directFind (L + deletes.length)).1 L
        ((directFind (L + deletes.length)).2 + adds.length) hL
    refine ⟨?_, fun _ => ⟨by rw [hfind], ⟨k, hk, by rw [hfind]; exact htot⟩⟩,
      fun h => absurd h hempty⟩
    rw [hfind]
    simp only [List.length_append]
    have hadds := CachedPage.patchedFindAdds_len adds
      (CachedPage.patchedFindDocs deletes updates L
        (directFind (L + deletes.length)).1
        ((directFind (L + deletes.length)).2 + adds.length)).2.1
    push_cast
    push_cast at hlen
    omega

/-- C6 witness: page `adds = [a]`, `deletes = [d]`, no updates, on-disk
results `[d, x]` with total 10 and limit 5: the theorem applies. -/
theorem C6_witness :
    (((CachedPage.find [("a", ([] : List (String × Int)))] ["d"] []
        (fun l => ([("d", []), ("x", [])].take l.toNat, 10)) 5).1.length : Int) ≤ 5) ∧
    (¬([("a", ([] : List (String × Int)))] = [] ∧ ["d"] = [] ∧
        ([] : List (String × List (String × Int))) = []) →
      (CachedPage.find [("a", ([] : List (String × Int)))] ["d"] []
        (fun l => ([("d", []), ("x", [])].take l.toNat, 10)) 5).2.2 =
        5 + (["d"] : List String).length ∧
      ∃ k ≤ (([("d", ([] : List (String × Int))), ("x", [])].take
          ((5 + (["d"] : List String).length : Int).toNat))).length,
        (CachedPage.find [("a", ([] : List (String × Int)))] ["d"] []
          (fun l => ([("d", []), ("x", [])].take l.toNat, 10)) 5).2.1 =
          10 + ([("a", ([] : List (String × Int)))] : List _).length -
            ((([("d", ([] : List (String × Int))), ("x", [])].take
                ((5 + (["d"] : List String).length : Int).toNat)).take k).countP
              (fun d => decide (d.1 ∈ (["d"] : List String)))) ) := by
  have h := C6_overlay_find [("a", ([] : List (String × Int)))] ["d"] []
    (fun l => ([("d", []), ("x", [])].take l.toNat, 10)) 5 (by decide)
    (by
      intro l hl
      simp only [List.length_take]
      omega)
  exact ⟨h.1, h.2.1⟩

/-! ## `sugar_network/toolkit/sneakernet.py` — the packet codec
(claims C3 and C4)

A packet is a tar archive: an ordered list of members.  Member contents
are kept structurally (JSON dictionaries, newline-separated JSON rows, or
raw blob bytes) — `json.dumps`/`json.loads` round-tripping is the
standard library's contract; the byte length of a serialized dictionary
is supplied by the abstract parameter `jsonLen` and member sizes abstract
from tar framing.  Record values are the JSON-ish `TVal`.

Member names produced by the writer fall into three disjoint syntactic
classes — `'%08d' % file_num` (digits only), a name suffixed by
`'.record'`, and the literal `'header'` — modelled by the inductive
`ArcName` (the `.packet` suffix of nested sub-packets is never produced
by `push` on plain data and has no constructor). -/

inductive TVal where
  | s (v : String)
  | n (v : Int)
  | b (v : Bool)
  | null
  | blobv (bytes : List Nat)
deriving DecidableEq, Repr

/-- A record dictionary. -/
abbrev TDict := List (String × TVal)

inductive ArcName where
  | auto (i : Nat)
  | record (base : ArcName)
  | header
deriving DecidableEq, Repr

inductive EContent where
  | meta (d : TDict)
  | rows (l : List TDict)
  | blob (bytes : List Nat)
deriving DecidableEq, Repr

structure TarEntry where
  name : ArcName
  content : EContent
deriving DecidableEq, Repr

/-- `OutPacket` state: the tar members written so far, `stream.tell()`
(as the sum of member content sizes), `self._file_num` and
`self._empty`.  (`self._size_to_flush` only schedules `fileobj.flush()`
calls and has no effect on the archive; it is not modelled.) -/
structure OutPacketState where
  entries : List TarEntry
  written : Int
  fileNum : Nat
  isEmpty : Bool
deriving DecidableEq, Repr

/-- `_RESERVED_SIZE = 1024 * 1024`. -/
def OutPacket.RESERVED_SIZE : Int := 1024 * 1024

/-- Content size in bytes: `len(json.dumps(d))` for a record file, the
row dumps each followed by `'\n'` for a rows file, the byte count for a
blob. -/
def EContent.size (jsonLen : TDict → Nat) : EContent → Int
  | .meta d => jsonLen d
  | .rows l => (l.map (fun r => (jsonLen r : Int) + 1)).sum
  | .blob bytes => bytes.length

/-- `OutPacket._enforce_limit(size)` with an explicit byte limit:
`free = limit - stream.tell() - _RESERVED_SIZE`; raise `DiskFull` when
`free - size <= 0`, else return `free`.  (With `limit = None` the source
consults `statvfs`; the claims concern explicit limits.) -/
def OutPacket._enforce_limit (limit : Int) (st : OutPacketState)
    (size : Int) : Except Unit Int :=
  let free := limit - st.written - OutPacket.RESERVED_SIZE
  if free - size ≤ 0 then Except.error () else Except.ok free

/-- `OutPacket._addfile(arcname, data, force)`: without `force` the limit
is enforced first (`DiskFull` leaves the archive untouched, carried as
`Except.error` with the state at raise); then the member is appended and
the packet is no longer empty. -/
def OutPacket._addfile (jsonLen : TDict → Nat) (limit : Int)
    (st : OutPacketState) (arcname : ArcName) (content : EContent)
    (force : Bool) : Except OutPacketState OutPacketState :=
  let size := content.size jsonLen
  let added : OutPacketState :=
    { entries := st.entries ++ [⟨arcname, content⟩],
      written := st.written + size,
      fileNum := st.fileNum,
      isEmpty := false }
  if force then Except.ok added
  else
    match OutPacket._enforce_limit limit st size with
    | Except.error _ => Except.error st
    | Except.ok _ => Except.ok added

/-- `OutPacket._add(arcname, data, meta)`: an absent `arcname` draws
`'%08d' % self._file_num` after incrementing it; the companion data file
(when any) is written under the limit, then the `.record` metadata file
is force-written. -/
def OutPacket._add (jsonLen : TDict → Nat) (limit : Int)
    (st : OutPacketState) (arcname : Option ArcName)
    (data : Option EContent) (meta : TDict) :
    Except OutPacketState OutPacketState :=
  let nm := match arcname with
    | some a => a
    | none => ArcName.auto (st.fileNum + 1)
  let st₁ := match arcname with
    | some _ => st
    | none => { st with fileNum := st.fileNum + 1 }
  match data with
  | none => OutPacket._addfile jsonLen limit st₁ (ArcName.record nm) (.meta meta) true
  | some c =>
    match OutPacket._addfile jsonLen limit st₁ nm c false with
    | Except.error st' => Except.error st'
    | Except.ok st₂ =>
      OutPacket._addfile jsonLen limit st₂ (ArcName.record nm) (.meta meta) true

/-- The inner `while True` filling loop of `push` for an iterable of
records: subtract the serialized length of the next row from the running
budget BEFORE writing; stop (leaving the row as leftover) once the budget
is exhausted, or when the iterator ends. -/
def OutPacket.fillChunk (jsonLen : TDict → Nat) :
    Int → TDict → List TDict → List TDict × Option (TDict × List TDict)
  | budget, chunk, rest =>
    let budget' := budget - jsonLen chunk
    if budget' ≤ 0 then ([], some (chunk, rest))
    else
      match rest with
      | [] => ([chunk], none)
      | c :: cs =>
        let r := OutPacket.fillChunk jsonLen budget' c cs
        (chunk :: r.1, r.2)

/-- The leftover of `fillChunk` keeps exactly the rows not written. -/
theorem OutPacket.fillChunk_some_len (jsonLen : TDict → Nat) :
    ∀ (rest : List TDict) (budget : Int) (chunk c : TDict) (cs : List TDict),
      (OutPacket.fillChunk jsonLen budget chunk rest).2 = some (c, cs) →
      (OutPacket.fillChunk jsonLen budget chunk rest).1.length + cs.length =
        rest.length := by
  intro rest
  induction rest with
  | nil =>
    intro budget chunk c cs h
    simp only [OutPacket.fillChunk] at h ⊢
    by_cases hb : budget - jsonLen chunk ≤ 0
    · rw [if_pos hb] at h ⊢
      injection h with h
      injection h with h1 h2
      simp [← h2]
    · rw [if_neg hb] at h
      simp at h
  | cons r rest' ih =>
    intro budget chunk c cs h
    simp only [OutPacket.fillChunk] at h ⊢
    by_cases hb : budget - jsonLen chunk ≤ 0
    · rw [if_pos hb] at h ⊢
      injection h with h
      injection h with h1 h2
      simp [← h2]
    · rw [if_neg hb] at h ⊢
      simp only [List.length_cons]
      have := ih (budget - jsonLen chunk) r c cs h
      omega

/-- The outer `while chunk is not None` loop of `push` for records:
check the limit (`self._enforce_limit()` with size 0 — `DiskFull` when no
room at all), fill a temporary file with rows while the free budget
lasts, raise `DiskFull` if not even one row fitted while rows remain,
otherwise add the chunk file plus its `.record` metadata and continue
with the leftover row.  (`self._flush(0, True)` only flushes the OS
stream.)  `chunk` is the pending row, `rest` the remaining iterator. -/
def OutPacket.pushRecordsLoop (jsonLen : TDict → Nat) (limit : Int)
    (meta : TDict) (arcname : Option ArcName) :
    TDict → List TDict → OutPacketState →
      Except OutPacketState OutPacketState
  | chunk, rest, st =>
    match OutPacket._enforce_limit limit st 0 with
    | Except.error _ => Except.error st
    | Except.ok free =>
      let fc := OutPacket.fillChunk jsonLen free chunk rest
      if hne : fc.1.isEmpty then
        match fc.2 with
        | some _ => Except.error st
        | none => Except.ok st
      else
        match OutPacket._add jsonLen limit st arcname
            (some (.rows fc.1)) meta with
        | Except.error st' => Except.error st'
        | Except.ok st₂ =>
          match hlo : fc.2 with
          | none => Except.ok st₂
          | some (c, cs) =>
            OutPacket.pushRecordsLoop jsonLen limit meta arcname c cs st₂
termination_by chunk rest st => rest.length
decreasing_by
  have hlen := OutPacket.fillChunk_some_len jsonLen rest free chunk c cs hlo
  simp only [List.isEmpty_iff] at hne
  rcases hfc : (OutPacket.fillChunk jsonLen free chunk rest).1 with _ | ⟨r, rs⟩
  · exact absurd hfc hne
  · rw [hfc] at hlen
    simp only [List.length_cons] at hlen
    omega

/-- One `push` call on plain data (a record dictionary, a blob, or an
iterable of record dictionaries). -/
inductive PushOp where
  | record (meta : TDict)
  | blob (bytes : List Nat) (meta : TDict)
  | records (rows : List TDict) (meta : TDict)
deriving DecidableEq, Repr

/-- `OutPacket.push(...)` on plain data with automatic arcnames:
`data=None` stores the metadata alone; a file-like `data` is stored as a
blob with `content_type='blob'`; an iterable of records is chunked by
`pushRecordsLoop` under `content_type='records'` (an empty iterable
returns before writing anything). -/
def OutPacket.push (jsonLen : TDict → Nat) (limit : Int)
    (st : OutPacketState) : PushOp → Except OutPacketState OutPacketState
  | .record meta => OutPacket._add jsonLen limit st none none meta
  | .blob bytes meta =>
    OutPacket._add jsonLen limit st none (some (.blob bytes))
      (assocSet meta "content_type" (TVal.s "blob"))
  | .records rows meta =>
    match rows with
    | [] => Except.ok st
    | r :: rs =>
      OutPacket.pushRecordsLoop jsonLen limit
        (assocSet meta "content_type" (TVal.s "records")) none r rs st

/-- A sequence of `push` calls; the first `DiskFull` aborts the sequence
(as an uncaught exception would), carrying the packet state at raise. -/
def OutPacket.runPushes (jsonLen : TDict → Nat) (limit : Int) :
    List PushOp → OutPacketState → Except OutPacketState OutPacketState
  | [], st => Except.ok st
  | op :: rest, st =>
    match OutPacket.push jsonLen limit st op with
    | Except.error st' => Except.error st'
    | Except.ok st' => OutPacket.runPushes jsonLen limit rest st'

/-- The fresh `OutPacket` state right after `__init__`. -/
def OutPacket.init : OutPacketState :=
  { entries := [], written := 0, fileNum := 0, isEmpty := true }

/-- `OutPacket.close()` → `_commit(clear)`: an `empty` packet is cleared
(the file is deleted — `none`); otherwise the `header` member is
force-appended and the tarball closed. -/
def OutPacket.close (jsonLen : TDict → Nat) (st : OutPacketState)
    (header : TDict) : Option OutPacketState :=
  if st.isEmpty then none
  else
    some { entries := st.entries ++ [⟨ArcName.header, .meta header⟩],
           written := st.written + jsonLen header,
           fileNum := st.fileNum,
           isEmpty := true }

/-- `tarfile.getmember(name)` (used by `extractfile` on a name) returns
the LAST archive member carrying that name. -/
def InPacket.findCompanion (entries : List TarEntry) (nm : ArcName) :
    Option EContent :=
  (entries.reverse.find? (fun e => e.name = nm)).map (fun e => e.content)

/-- One iteration of the `for info in self._tarball` loop of
`InPacket.records(**filters)`: members that are not `.record` metadata
files are skipped (the modelled writer never produces `.packet`
sub-packets); for a `.record` member the metadata is loaded and
`meta.update(self.header)` merges the PACKET header over it; the
`filters` comparison uses `meta.get(key) != value` (an absent key reads
as JSON null); then `content_type` selects plain yield, rows expansion
(each row updated with the metadata) or blob attachment from the
companion member.  A `.record` member whose content is not a JSON
dictionary, or a missing/mismatched companion, fails like the
corresponding `json.load`/`extractfile` call would. -/
def InPacket.readEntry (header : TDict) (filters : TDict)
    (all : List TarEntry) (e : TarEntry) : Except String (List TDict) :=
  match e.name with
  | ArcName.record nm =>
    match e.content with
    | .meta m =>
      let m' := dictUpdate m header
      if filters.all
          (fun kv => ((Record.get m' kv.1).getD TVal.null) = kv.2) then
        match Record.get m' "content_type" with
        | some (TVal.s "records") =>
          match InPacket.findCompanion all nm with
          | some (.rows l) =>
            Except.ok (l.map (fun item => dictUpdate item m'))
          | _ => Except.error "Malformed packet"
        | some (TVal.s "blob") =>
          match InPacket.findCompanion all nm with
          | some (.blob bytes) =>
            Except.ok [assocSet m' "blob" (TVal.blobv bytes)]
          | _ => Except.error "Malformed packet"
        | _ => Except.ok [m']
      else Except.ok []
    | _ => Except.error "Malformed packet"
  | _ => Except.ok []

def InPacket.readLoop (header : TDict) (filters : TDict)
    (all : List TarEntry) : List TarEntry → Except String (List TDict)
  | [] => Except.ok []
  | e :: rest =>
    match InPacket.readEntry header filters all e with
    | Except.error msg => Except.error msg
    | Except.ok items =>
      match InPacket.readLoop header filters all rest with
      | Except.error msg => Except.error msg
      | Except.ok items' => Except.ok (items ++ items')

/-- `InPacket.__init__` extracts the `header` member (a missing or
non-dictionary header makes the packet `Malformed`), then
`records(**filters)` walks every member. -/
def InPacket.records (filters : TDict) (entries : List TarEntry) :
    Except String (List TDict) :=
  match InPacket.findCompanion entries ArcName.header with
  | some (.meta h) => InPacket.readLoop h filters entries entries
  | _ => Except.error "Malformed packet"

/-- The items a reader with no filters is expected to yield for a list
of pushes, per the claim: each pushed record dictionary, with
`content_type` set for blob and records pushes, the packet header merged
over it by `meta.update(self.header)`, rows of a records push further
merged with their chunk metadata, and blobs attached under `'blob'`. -/
def packetItems (header : TDict) : List PushOp → List TDict
  | [] => []
  | PushOp.record meta :: rest => dictUpdate meta header :: packetItems header rest
  | PushOp.blob bytes meta :: rest =>
    assocSet
        (dictUpdate (assocSet meta "content_type" (TVal.s "blob")) header)
        "blob" (TVal.blobv bytes) :: packetItems header rest
  | PushOp.records rows meta :: rest =>
    (rows.map (fun r =>
      dictUpdate r
        (dictUpdate (assocSet meta "content_type" (TVal.s "records"))
          header))) ++ packetItems header rest

/-! Step equations for `pushRecordsLoop` (it is defined by well-founded
recursion, so these replace definitional unfolding). -/

theorem OutPacket.pushRecordsLoop_full (jsonLen : TDict → Nat)
    (limit : Int) (meta : TDict) (arcname : Option ArcName)
    (chunk : TDict) (rest : List TDict) (st : OutPacketState)
    (henf : OutPacket._enforce_limit limit st 0 = Except.error ()) :
    OutPacket.pushRecordsLoop jsonLen limit meta arcname chunk rest st =
      Except.error st := by
  unfold OutPacket.pushRecordsLoop
  rw [henf]

theorem OutPacket.pushRecordsLoop_nofit (jsonLen : TDict → Nat)
    (limit : Int) (meta : TDict) (arcname : Option ArcName)
    (chunk : TDict) (rest : List TDict) (st : OutPacketState) (free : Int)
    (lo : TDict × List TDict)
    (henf : OutPacket._enforce_limit limit st 0 = Except.ok free)
    (hfc : OutPacket.fillChunk jsonLen free chunk rest = ([], some lo)) :
    OutPacket.pushRecordsLoop jsonLen limit meta arcname chunk rest st =
      Except.error st := by
  unfold OutPacket.pushRecordsLoop
  rw [henf]
  simp only [hfc]
  rfl

theorem OutPacket.pushRecordsLoop_last (jsonLen : TDict → Nat)
    (limit : Int) (meta : TDict) (arcname : Option ArcName)
    (chunk : TDict) (rest : List TDict) (st st₂ : OutPacketState)
    (free : Int) (cr : List TDict)
    (henf : OutPacket._enforce_limit limit st 0 = Except.ok free)
    (hfc : OutPacket.fillChunk jsonLen free chunk rest = (cr, none))
    (hcr : cr ≠ [])
    (hadd : OutPacket._add jsonLen limit st arcname (some (.rows cr)) meta =
      Except.ok st₂) :
    OutPacket.pushRecordsLoop jsonLen limit meta arcname chunk rest st =
      Except.ok st₂ := by
  unfold OutPacket.pushRecordsLoop
  rw [henf]
  simp only [hfc, List.isEmpty_iff, hadd]
  rw [dif_neg hcr]
  split
  · rfl
  · rename_i c' cs' heq
    rw [hfc] at heq
    simp at heq

theorem OutPacket.pushRecordsLoop_add_error (jsonLen : TDict → Nat)
    (limit : Int) (meta : TDict) (arcname : Option ArcName)
    (chunk : TDict) (rest : List TDict) (st st' : OutPacketState)
    (free : Int) (cr : List TDict) (lo : Option (TDict × List TDict))
    (henf : OutPacket._enforce_limit limit st 0 = Except.ok free)
    (hfc : OutPacket.fillChunk jsonLen free chunk rest = (cr, lo))
    (hcr : cr ≠ [])
    (hadd : OutPacket._add jsonLen limit st arcname (some (.rows cr)) meta =
      Except.error st') :
    OutPacket.pushRecordsLoop jsonLen limit meta arcname chunk rest st =
      Except.error st' := by
  unfold OutPacket.pushRecordsLoop
  rw [henf]
  simp only [hfc, List.isEmpty_iff, hadd]
  rw [dif_neg hcr]

theorem OutPacket.pushRecordsLoop_cont (jsonLen : TDict → Nat)
    (limit : Int) (meta : TDict) (arcname : Option ArcName)
    (chunk : TDict) (rest : List TDict) (st st₂ : OutPacketState)
    (free : Int) (cr : List TDict) (c : TDict) (cs : List TDict)
    (henf : OutPacket._enforce_limit limit st 0 = Except.ok free)
    (hfc : OutPacket.fillChunk jsonLen free chunk rest = (cr, some (c, cs)))
    (hcr : cr ≠ [])
    (hadd : OutPacket._add jsonLen limit st arcname (some (.rows cr)) meta =
      Except.ok st₂) :
    OutPacket.pushRecordsLoop jsonLen limit meta arcname chunk rest st =
      OutPacket.pushRecordsLoop jsonLen limit meta arcname c cs st₂ := by
  generalize hR :
    OutPacket.pushRecordsLoop jsonLen limit meta arcname c cs st₂ = R
  unfold OutPacket.pushRecordsLoop
  rw [henf]
  simp only [hfc, List.isEmpty_iff, hadd]
  rw [dif_neg hcr]
  split
  · rename_i heq
    rw [hfc] at heq
    simp at heq
  · rename_i c' cs' heq
    rw [hfc] at heq
    injection heq with heq
    injection heq with h1 h2
    subst h1
    subst h2
    exact hR

/-- The metadata dictionary a push call was given. -/
def PushOp.metaOf : PushOp → TDict
  | .record meta => meta
  | .blob _ meta => meta
  | .records _ meta => meta

/-- The archive members produced by chunking the rows of one records
push: consecutive data/metadata member pairs numbered from `n + 1`, each
data member holding one nonempty chunk, the chunks concatenating back to
the pushed rows. -/
inductive ChunksFor (meta' : TDict) :
    List TDict → Nat → Nat → List TarEntry → Prop where
  | nil (n : Nat) : ChunksFor meta' [] n n []
  | cons (c : List TDict) (rs : List TDict) (n n' : Nat)
      (es : List TarEntry) (hc : c ≠ [])
      (h : ChunksFor meta' rs (n + 1) n' es) :
      ChunksFor meta' (c ++ rs) n n'
        (⟨ArcName.auto (n + 1), .rows c⟩ ::
          ⟨ArcName.record (ArcName.auto (n + 1)), .meta meta'⟩ :: es)

/-- The archive members produced by a list of push calls starting from
file number `n` and ending at a file number of at most `m`: a `.record`
member per plain record push, a data/metadata pair per blob push, and a
chunk sequence per records push (with `content_type` stamped into the
stored metadata of blob and records pushes). -/
inductive GroupsFor : List PushOp → Nat → Nat → List TarEntry → Prop where
  | nil (n m : Nat) (h : n ≤ m) : GroupsFor [] n m []
  | record (meta : TDict) (rest : List PushOp) (n m : Nat)
      (es : List TarEntry) (h : GroupsFor rest (n + 1) m es) :
      GroupsFor (PushOp.record meta :: rest) n m
        (⟨ArcName.record (ArcName.auto (n + 1)), .meta meta⟩ :: es)
  | blob (bytes : List Nat) (meta : TDict) (rest : List PushOp)
      (n m : Nat) (es : List TarEntry) (h : GroupsFor rest (n + 1) m es) :
      GroupsFor (PushOp.blob bytes meta :: rest) n m
        (⟨ArcName.auto (n + 1), .blob bytes⟩ ::
          ⟨ArcName.record (ArcName.auto (n + 1)),
            .meta (assocSet meta "content_type" (TVal.s "blob"))⟩ :: es)
  | records (rows : List TDict) (meta : TDict) (rest : List PushOp)
      (n n' m : Nat) (ces es : List TarEntry)
      (hch : ChunksFor (assocSet meta "content_type" (TVal.s "records"))
        rows n n' ces)
      (h : GroupsFor rest n' m es) :
      GroupsFor (PushOp.records rows meta :: rest) n m (ces ++ es)

theorem GroupsFor.mono {ops : List PushOp} {n m m' : Nat}
    {es : List TarEntry} (h : GroupsFor ops n m es) (hm : m ≤ m') :
    GroupsFor ops n m' es := by
  induction h with
  | nil n m hle => exact GroupsFor.nil n m' (le_trans hle hm)
  | record meta rest n m es h ih =>
    exact GroupsFor.record meta rest n m' es (ih hm)
  | blob bytes meta rest n m es h ih =>
    exact GroupsFor.blob bytes meta rest n m' es (ih hm)
  | records rows meta rest n n' m ces es hch h ih =>
    exact GroupsFor.records rows meta rest n n' m' ces es hch (ih hm)

theorem OutPacket._addfile_force (jsonLen : TDict → Nat) (limit : Int)
    (st : OutPacketState) (arcname : ArcName) (content : EContent) :
    OutPacket._addfile jsonLen limit st arcname content true =
      Except.ok
        { entries := st.entries ++ [⟨arcname, content⟩],
          written := st.written + content.size jsonLen,
          fileNum := st.fileNum, isEmpty := false } := by
  simp [OutPacket._addfile]

theorem OutPacket._addfile_nf_ok (jsonLen : TDict → Nat) (limit : Int)
    (st : OutPacketState) (arcname : ArcName) (content : EContent)
    (free : Int)
    (henf : OutPacket._enforce_limit limit st (content.size jsonLen) =
      Except.ok free) :
    OutPacket._addfile jsonLen limit st arcname content false =
      Except.ok
        { entries := st.entries ++ [⟨arcname, content⟩],
          written := st.written + content.size jsonLen,
          fileNum := st.fileNum, isEmpty := false } := by
  simp [OutPacket._addfile, henf]

theorem OutPacket._addfile_nf_error (jsonLen : TDict → Nat) (limit : Int)
    (st : OutPacketState) (arcname : ArcName) (content : EContent)
    (henf : OutPacket._enforce_limit limit st (content.size jsonLen) =
      Except.error ()) :
    OutPacket._addfile jsonLen limit st arcname content false =
      Except.error st := by
  simp [OutPacket._addfile, henf]

/-- Successful `_add` with automatic arcname: the data member and its
`.record` metadata member are appended under the next file number. -/
theorem OutPacket._add_auto_ok (jsonLen : TDict → Nat) (limit : Int)
    (st st' : OutPacketState) (d : EContent) (meta : TDict)
    (h : OutPacket._add jsonLen limit st none (some d) meta =
      Except.ok st') :
    st' = { entries := st.entries ++
              [⟨ArcName.auto (st.fileNum + 1), d⟩,
               ⟨ArcName.record (ArcName.auto (st.fileNum + 1)), .meta meta⟩],
            written := st.written + d.size jsonLen + jsonLen meta,
            fileNum := st.fileNum + 1,
            isEmpty := false } := by
  simp only [OutPacket._add] at h
  rcases henf : OutPacket._enforce_limit limit
      { st with fileNum := st.fileNum + 1 } (d.size jsonLen) with u | free
  · cases u
    rw [OutPacket._addfile_nf_error jsonLen limit _ _ _ henf] at h
    simp at h
  · rw [OutPacket._addfile_nf_ok jsonLen limit _ _ _ free henf] at h
    simp only [OutPacket._addfile_force] at h
    injection h with h
    rw [← h]
    simp [EContent.size, List.append_assoc]

/-- Failing `_add` with automatic arcname: `DiskFull` from the data
member's limit check leaves the members untouched (the file number was
already advanced). -/
theorem OutPacket._add_auto_error (jsonLen : TDict → Nat) (limit : Int)
    (st st' : OutPacketState) (d : EContent) (meta : TDict)
    (h : OutPacket._add jsonLen limit st none (some d) meta =
      Except.error st') :
    st' = { st with fileNum := st.fileNum + 1 } := by
  simp only [OutPacket._add] at h
  rcases henf : OutPacket._enforce_limit limit
      { st with fileNum := st.fileNum + 1 } (d.size jsonLen) with u | free
  · cases u
    rw [OutPacket._addfile_nf_error jsonLen limit _ _ _ henf] at h
    simp only [Except.error.injEq] at h
    exact h.symm
  · rw [OutPacket._addfile_nf_ok jsonLen limit _ _ _ free henf] at h
    simp only [OutPacket._addfile_force] at h
    simp at h

/-- A plain record push always succeeds (the `.record` member is
force-written) and appends exactly that member. -/
theorem OutPacket.push_record_eq (jsonLen : TDict → Nat) (limit : Int)
    (st : OutPacketState) (meta : TDict) :
    OutPacket.push jsonLen limit st (PushOp.record meta) =
      Except.ok
        { entries := st.entries ++
            [⟨ArcName.record (ArcName.auto (st.fileNum + 1)), .meta meta⟩],
          written := st.written + jsonLen meta,
          fileNum := st.fileNum + 1,
          isEmpty := false } := by
  simp [OutPacket.push, OutPacket._add, OutPacket._addfile, EContent.size]

/-- If `fillChunk` consumed every row, the chunk is the whole input. -/
theorem OutPacket.fillChunk_none_eq (jsonLen : TDict → Nat) :
    ∀ (rest : List TDict) (budget : Int) (chunk : TDict) (cr : List TDict),
      OutPacket.fillChunk jsonLen budget chunk rest = (cr, none) →
      cr = chunk :: rest := by
  intro rest
  induction rest with
  | nil =>
    intro budget chunk cr h
    simp only [OutPacket.fillChunk] at h
    by_cases hb : budget - jsonLen chunk ≤ 0
    · rw [if_pos hb] at h
      simp at h
    · rw [if_neg hb] at h
      injection h with h1 h2
      exact h1.symm
  | cons r rest' ih =>
    intro budget chunk cr h
    simp only [OutPacket.fillChunk] at h
    by_cases hb : budget - jsonLen chunk ≤ 0
    · rw [if_pos hb] at h
      simp at h
    · rw [if_neg hb] at h
      rcases hr : OutPacket.fillChunk jsonLen (budget - jsonLen chunk) r rest'
        with ⟨cr', lo'⟩
      rw [hr] at h
      injection h with h1 h2
      subst h2
      have := ih (budget - jsonLen chunk) r cr' hr
      rw [← h1, this]

/-- If `fillChunk` left rows over, chunk and leftover concatenate back
to the input. -/
theorem OutPacket.fillChunk_some_eq (jsonLen : TDict → Nat) :
    ∀ (rest : List TDict) (budget : Int) (chunk c : TDict)
      (cr cs : List TDict),
      OutPacket.fillChunk jsonLen budget chunk rest = (cr, some (c, cs)) →
      chunk :: rest = cr ++ c :: cs := by
  intro rest
  induction rest with
  | nil =>
    intro budget chunk c cr cs h
    simp only [OutPacket.fillChunk] at h
    by_cases hb : budget - jsonLen chunk ≤ 0
    · rw [if_pos hb] at h
      injection h with h1 h2
      injection h2 with h2
      injection h2 with h3 h4
      subst h3; subst h4
      simp [← h1]
    · rw [if_neg hb] at h
      simp at h
  | cons r rest' ih =>
    intro budget chunk c cr cs h
    simp only [OutPacket.fillChunk] at h
    by_cases hb : budget - jsonLen chunk ≤ 0
    · rw [if_pos hb] at h
      injection h with h1 h2
      injection h2 with h2
      injection h2 with h3 h4
      subst h3; subst h4
      simp [← h1]
    · rw [if_neg hb] at h
      rcases hr : OutPacket.fillChunk jsonLen (budget - jsonLen chunk) r rest'
        with ⟨cr', lo'⟩
      rw [hr] at h
      injection h with h1 h2
      subst h2
      have := ih (budget - jsonLen chunk) r c cr' cs hr
      rw [← h1]
      simpa using this

/-- A successful records-push loop appends exactly a chunk sequence for
the pending rows, advancing the file number accordingly. -/
theorem OutPacket.pushRecordsLoop_ok_shape (jsonLen : TDict → Nat)
    (limit : Int) (meta' : TDict) :
    ∀ (N : Nat) (chunk : TDict) (rest : List TDict)
      (st st' : OutPacketState), rest.length ≤ N →
      OutPacket.pushRecordsLoop jsonLen limit meta' none chunk rest st =
        Except.ok st' →
      ∃ es, st'.entries = st.entries ++ es ∧
        ChunksFor meta' (chunk :: rest) st.fileNum st'.fileNum es := by
  intro N
  induction N with
  | zero =>
    intro chunk rest st st' hlen hok
    have hrest : rest = [] := List.eq_nil_of_length_eq_zero (by omega)
    subst hrest
    rcases henf : OutPacket._enforce_limit limit st 0 with u | free
    · cases u
      rw [OutPacket.pushRecordsLoop_full jsonLen limit meta' none chunk [] st
        henf] at hok
      simp at hok
    · rcases hfc : OutPacket.fillChunk jsonLen free chunk [] with ⟨cr, lo⟩
      rcases lo with _ | ⟨c, cs⟩
      · have hcr := OutPacket.fillChunk_none_eq jsonLen [] free chunk cr hfc
        subst hcr
        rcases hadd : OutPacket._add jsonLen limit st none
            (some (.rows (chunk :: []))) meta' with st₁ | st₂
        · rw [OutPacket.pushRecordsLoop_add_error jsonLen limit meta' none
            chunk [] st st₁ free (chunk :: []) none henf hfc (by simp)
            hadd] at hok
          simp at hok
        · rw [OutPacket.pushRecordsLoop_last jsonLen limit meta' none
            chunk [] st st₂ free (chunk :: []) henf hfc (by simp) hadd] at hok
          injection hok with hok
          subst hok
          have h2 := OutPacket._add_auto_ok jsonLen limit st st₂
            (.rows (chunk :: [])) meta' hadd
          subst h2
          refine ⟨[⟨ArcName.auto (st.fileNum + 1), .rows (chunk :: [])⟩,
            ⟨ArcName.record (ArcName.auto (st.fileNum + 1)), .meta meta'⟩],
            by simp, ?_⟩
          have := @ChunksFor.cons meta' (chunk :: []) [] st.fileNum
            (st.fileNum + 1) [] (by simp)
            (ChunksFor.nil (st.fileNum + 1))
          simpa using this
      · have := OutPacket.fillChunk_some_eq jsonLen [] free chunk c cr cs hfc
        rcases cr with _ | ⟨r, rs⟩
        · rw [OutPacket.pushRecordsLoop_nofit jsonLen limit meta' none
            chunk [] st free (c, cs) henf hfc] at hok
          simp at hok
        · have hl := congrArg List.length this
          simp only [List.length_cons, List.length_append] at hl
          omega
  | succ N ih =>
    intro chunk rest st st' hlen hok
    rcases henf : OutPacket._enforce_limit limit st 0 with u | free
    · cases u
      rw [OutPacket.pushRecordsLoop_full jsonLen limit meta' none chunk rest st
        henf] at hok
      simp at hok
    · rcases hfc : OutPacket.fillChunk jsonLen free chunk rest with ⟨cr, lo⟩
      rcases lo with _ | ⟨c, cs⟩
      · have hcr := OutPacket.fillChunk_none_eq jsonLen rest free chunk cr hfc
        subst hcr
        rcases hadd : OutPacket._add jsonLen limit st none
            (some (.rows (chunk :: rest))) meta' with st₁ | st₂
        · rw [OutPacket.pushRecordsLoop_add_error jsonLen limit meta' none
            chunk rest st st₁ free (chunk :: rest) none henf hfc (by simp)
            hadd] at hok
          simp at hok
        · rw [OutPacket.pushRecordsLoop_last jsonLen limit meta' none
            chunk rest st st₂ free (chunk :: rest) henf hfc (by simp)
            hadd] at hok
          injection hok with hok
          subst hok
          have h2 := OutPacket._add_auto_ok jsonLen limit st st₂
            (.rows (chunk :: rest)) meta' hadd
          subst h2
          refine ⟨[⟨ArcName.auto (st.fileNum + 1), .rows (chunk :: rest)⟩,
            ⟨ArcName.record (ArcName.auto (st.fileNum + 1)), .meta meta'⟩],
            by simp, ?_⟩
          have := @ChunksFor.cons meta' (chunk :: rest) []
            st.fileNum (st.fileNum + 1) [] (by simp)
            (ChunksFor.nil (st.fileNum + 1))
          simpa using this
      · rcases hcr0 : cr with _ | ⟨r, rs⟩
        · subst hcr0
          rw [OutPacket.pushRecordsLoop_nofit jsonLen limit meta' none
            chunk rest st free (c, cs) henf hfc] at hok
          simp at hok
        · subst hcr0
          rcases hadd : OutPacket._add jsonLen limit st none
              (some (.rows (r :: rs))) meta' with st₁ | st₂
          · rw [OutPacket.pushRecordsLoop_add_error jsonLen limit meta' none
              chunk rest st st₁ free (r :: rs) (some (c, cs)) henf hfc
              (by simp) hadd] at hok
            simp at hok
          · rw [OutPacket.pushRecordsLoop_cont jsonLen limit meta' none
              chunk rest st st₂ free (r :: rs) c cs henf hfc (by simp)
              hadd] at hok
            have hsplit := OutPacket.fillChunk_some_eq jsonLen rest free
              chunk c (r :: rs) cs hfc
            have hlen2 := OutPacket.fillChunk_some_len jsonLen rest free
              chunk c cs (by rw [hfc])
            rw [hfc] at hlen2
            simp only [List.length_cons] at hlen2
            have h2 := OutPacket._add_auto_ok jsonLen limit st st₂
              (.rows (r :: rs)) meta' hadd
            obtain ⟨es', he', hch'⟩ := ih c cs st₂ st' (by omega) hok
            refine ⟨⟨ArcName.auto (st.fileNum + 1), .rows (r :: rs)⟩ ::
              ⟨ArcName.record (ArcName.auto (st.fileNum + 1)), .meta meta'⟩ ::
              es', ?_, ?_⟩
            · rw [he', h2]
              simp [List.append_assoc]
            · rw [hsplit]
              have hfn₂ : st₂.fileNum = st.fileNum + 1 := by rw [h2]
              rw [hfn₂] at hch'
              exact ChunksFor.cons (r :: rs) (c :: cs) st.fileNum
                st'.fileNum es' (by simp) hch'

/-- A successful sequence of pushes appends exactly the corresponding
member groups. -/
theorem OutPacket.runPushes_shape (jsonLen : TDict → Nat) (limit : Int) :
    ∀ (ops : List PushOp) (st st' : OutPacketState),
      OutPacket.runPushes jsonLen limit ops st = Except.ok st' →
      ∃ es, st'.entries = st.entries ++ es ∧
        GroupsFor ops st.fileNum st'.fileNum es := by
  intro ops
  induction ops with
  | nil =>
    intro st st' hok
    simp only [OutPacket.runPushes] at hok
    injection hok with hok
    subst hok
    exact ⟨[], by simp, GroupsFor.nil _ _ le_rfl⟩
  | cons op rest ih =>
    intro st st' hok
    simp only [OutPacket.runPushes] at hok
    rcases hpush : OutPacket.push jsonLen limit st op with st₁ | st₁
    · rw [hpush] at hok
      simp at hok
    · rw [hpush] at hok
      obtain ⟨es', he', hg'⟩ := ih st₁ st' hok
      rcases op with meta | ⟨bytes, meta⟩ | ⟨rows, meta⟩
      · rw [OutPacket.push_record_eq] at hpush
        injection hpush with hpush
        refine ⟨⟨ArcName.record (ArcName.auto (st.fileNum + 1)),
          .meta meta⟩ :: es', ?_, ?_⟩
        · rw [he', ← hpush]
          simp [List.append_assoc]
        · have hfn : st₁.fileNum = st.fileNum + 1 := by rw [← hpush]
          refine GroupsFor.record meta rest st.fileNum st'.fileNum es' ?_
          rw [← hfn]
          exact hg'
      · simp only [OutPacket.push] at hpush
        have h2 := OutPacket._add_auto_ok jsonLen limit st st₁
          (.blob bytes) (assocSet meta "content_type" (TVal.s "blob")) hpush
        refine ⟨⟨ArcName.auto (st.fileNum + 1), .blob bytes⟩ ::
          ⟨ArcName.record (ArcName.auto (st.fileNum + 1)),
            .meta (assocSet meta "content_type" (TVal.s "blob"))⟩ :: es',
          ?_, ?_⟩
        · rw [he', h2]
          simp [List.append_assoc]
        · have hfn : st₁.fileNum = st.fileNum + 1 := by rw [h2]
          refine GroupsFor.blob bytes meta rest st.fileNum st'.fileNum es' ?_
          rw [← hfn]
          exact hg'
      · rcases rows with _ | ⟨r, rs⟩
        · simp only [OutPacket.push] at hpush
          injection hpush with hpush
          subst hpush
          refine ⟨es', he', ?_⟩
          have := GroupsFor.records [] meta rest st.fileNum st.fileNum
            st'.fileNum [] es' (ChunksFor.nil st.fileNum) hg'
          simpa using this
        · simp only [OutPacket.push] at hpush
          obtain ⟨ces, hce, hch⟩ := OutPacket.pushRecordsLoop_ok_shape
            jsonLen limit (assocSet meta "content_type" (TVal.s "records"))
            rs.length r rs st st₁ le_rfl hpush
          refine ⟨ces ++ es', ?_, ?_⟩
          · rw [he', hce]
            simp [List.append_assoc]
          · exact GroupsFor.records (r :: rs) meta rest st.fileNum
              st₁.fileNum st'.fileNum ces es' hch hg'

/-- A records-push loop that raises `DiskFull` has written the chunks of
some PREFIX of the pending rows (never a partial chunk), leaving the
members otherwise untouched. -/
theorem OutPacket.pushRecordsLoop_error_shape (jsonLen : TDict → Nat)
    (limit : Int) (meta' : TDict) :
    ∀ (N : Nat) (chunk : TDict) (rest : List TDict)
      (st st' : OutPacketState), rest.length ≤ N →
      OutPacket.pushRecordsLoop jsonLen limit meta' none chunk rest st =
        Except.error st' →
      ∃ pre suf es n₂, pre ++ suf = chunk :: rest ∧
        st'.entries = st.entries ++ es ∧
        ChunksFor meta' pre st.fileNum n₂ es ∧ n₂ ≤ st'.fileNum := by
  intro N
  induction N with
  | zero =>
    intro chunk rest st st' hlen hok
    have hrest : rest = [] := List.eq_nil_of_length_eq_zero (by omega)
    subst hrest
    rcases henf : OutPacket._enforce_limit limit st 0 with u | free
    · cases u
      rw [OutPacket.pushRecordsLoop_full jsonLen limit meta' none chunk [] st
        henf] at hok
      injection hok with hok
      subst hok
      exact ⟨[], chunk :: [], [], st.fileNum, rfl, by simp,
        ChunksFor.nil st.fileNum, le_rfl⟩
    · rcases hfc : OutPacket.fillChunk jsonLen free chunk [] with ⟨cr, lo⟩
      rcases lo with _ | ⟨c, cs⟩
      · have hcr := OutPacket.fillChunk_none_eq jsonLen [] free chunk cr hfc
        subst hcr
        rcases hadd : OutPacket._add jsonLen limit st none
            (some (.rows (chunk :: []))) meta' with st₁ | st₂
        · rw [OutPacket.pushRecordsLoop_add_error jsonLen limit meta' none
            chunk [] st st₁ free (chunk :: []) none henf hfc (by simp)
            hadd] at hok
          injection hok with hok
          subst hok
          have h2 := OutPacket._add_auto_error jsonLen limit st st₁
            (.rows (chunk :: [])) meta' hadd
          subst h2
          exact ⟨[], chunk :: [], [], st.fileNum, rfl, by simp,
            ChunksFor.nil st.fileNum, by simp⟩
        · rw [OutPacket.pushRecordsLoop_last jsonLen limit meta' none
            chunk [] st st₂ free (chunk :: []) henf hfc (by simp)
            hadd] at hok
          simp at hok
      · have := OutPacket.fillChunk_some_eq jsonLen [] free chunk c cr cs hfc
        rcases cr with _ | ⟨r, rs⟩
        · rw [OutPacket.pushRecordsLoop_nofit jsonLen limit meta' none
            chunk [] st free (c, cs) henf hfc] at hok
          injection hok with hok
          subst hok
          exact ⟨[], chunk :: [], [], st.fileNum, rfl, by simp,
            ChunksFor.nil st.fileNum, le_rfl⟩
        · have hl := congrArg List.length this
          simp only [List.length_cons, List.length_append] at hl
          omega
  | succ N ih =>
    intro chunk rest st st' hlen hok
    rcases henf : OutPacket._enforce_limit limit st 0 with u | free
    · cases u
      rw [OutPacket.pushRecordsLoop_full jsonLen limit meta' none chunk rest st
        henf] at hok
      injection hok with hok
      subst hok
      exact ⟨[], chunk :: rest, [], st.fileNum, rfl, by simp,
        ChunksFor.nil st.fileNum, le_rfl⟩
    · rcases hfc : OutPacket.fillChunk jsonLen free chunk rest with ⟨cr, lo⟩
      rcases lo with _ | ⟨c, cs⟩
      · have hcr := OutPacket.fillChunk_none_eq jsonLen rest free chunk cr hfc
        subst hcr
        rcases hadd : OutPacket._add jsonLen limit st none
            (some (.rows (chunk :: rest))) meta' with st₁ | st₂
        · rw [OutPacket.pushRecordsLoop_add_error jsonLen limit meta' none
            chunk rest st st₁ free (chunk :: rest) none henf hfc (by simp)
            hadd] at hok
          injection hok with hok
          subst hok
          have h2 := OutPacket._add_auto_error jsonLen limit st st₁
            (.rows (chunk :: rest)) meta' hadd
          subst h2
          exact ⟨[], chunk :: rest, [], st.fileNum, rfl, by simp,
            ChunksFor.nil st.fileNum, by simp⟩
        · rw [OutPacket.pushRecordsLoop_last jsonLen limit meta' none
            chunk rest st st₂ free (chunk :: rest) henf hfc (by simp)
            hadd] at hok
          simp at hok
      · rcases hcr0 : cr with _ | ⟨r, rs⟩
        · subst hcr0
          rw [OutPacket.pushRecordsLoop_nofit jsonLen limit meta' none
            chunk rest st free (c, cs) henf hfc] at hok
          injection hok with hok
          subst hok
          exact ⟨[], chunk :: rest, [], st.fileNum, rfl, by simp,
            ChunksFor.nil st.fileNum, le_rfl⟩
        · subst hcr0
          rcases hadd : OutPacket._add jsonLen limit st none
              (some (.rows (r :: rs))) meta' with st₁ | st₂
          · rw [OutPacket.pushRecordsLoop_add_error jsonLen limit meta' none
              chunk rest st st₁ free (r :: rs) (some (c, cs)) henf hfc
              (by simp) hadd] at hok
            injection hok with hok
            subst hok
            have h2 := OutPacket._add_auto_error jsonLen limit st st₁
              (.rows (r :: rs)) meta' hadd
            subst h2
            exact ⟨[], chunk :: rest, [], st.fileNum, rfl, by simp,
              ChunksFor.nil st.fileNum, by simp⟩
          · rw [OutPacket.pushRecordsLoop_cont jsonLen limit meta' none
              chunk rest st st₂ free (r :: rs) c cs henf hfc (by simp)
              hadd] at hok
            have hsplit := OutPacket.fillChunk_some_eq jsonLen rest free
              chunk c (r :: rs) cs hfc
            have hlen2 := OutPacket.fillChunk_some_len jsonLen rest free
              chunk c cs (by rw [hfc])
            rw [hfc] at hlen2
            simp only [List.length_cons] at hlen2
            have h2 := OutPacket._add_auto_ok jsonLen limit st st₂
              (.rows (r :: rs)) meta' hadd
            obtain ⟨pre', suf', es', n₂', hps', he', hch', hn'⟩ :=
              ih c cs st₂ st' (by omega) hok
            have hfn₂ : st₂.fileNum = st.fileNum + 1 := by rw [h2]
            rw [hfn₂] at hch'
            refine ⟨(r :: rs) ++ pre', suf',
              ⟨ArcName.auto (st.fileNum + 1), .rows (r :: rs)⟩ ::
                ⟨ArcName.record (ArcName.auto (st.fileNum + 1)),
                  .meta meta'⟩ :: es', n₂', ?_, ?_, ?_, hn'⟩
            · rw [hsplit, List.append_assoc, hps']
            · rw [he', h2]
              simp [List.append_assoc]
            · exact ChunksFor.cons (r :: rs) pre' st.fileNum n₂' es'
                (by simp) hch'

/-- `ops'` is what remains of `ops` when the push at position `k` (if
any) raises `DiskFull`: the completed pushes before it, plus — when the
failing push was a records push — the complete chunks it managed to
write, holding a prefix of its rows. -/
def TruncFor (ops ops' : List PushOp) : Prop :=
  ∃ k, ops' = ops.take k ∨
    ∃ rows meta pre suf, ops.get? k = some (PushOp.records rows meta) ∧
      pre ++ suf = rows ∧ ops' = ops.take k ++ [PushOp.records pre meta]

/-- A successful push appends a member group that extends any
`GroupsFor` decomposition of what follows. -/
theorem OutPacket.push_ok_shape (jsonLen : TDict → Nat) (limit : Int)
    (op : PushOp) (st st₁ : OutPacketState)
    (h : OutPacket.push jsonLen limit st op = Except.ok st₁) :
    ∃ ges, st₁.entries = st.entries ++ ges ∧
      ∀ (rest : List PushOp) (m : Nat) (es : List TarEntry),
        GroupsFor rest st₁.fileNum m es →
        GroupsFor (op :: rest) st.fileNum m (ges ++ es) := by
  rcases op with meta | ⟨bytes, meta⟩ | ⟨rows, meta⟩
  · rw [OutPacket.push_record_eq] at h
    injection h with h
    refine ⟨[⟨ArcName.record (ArcName.auto (st.fileNum + 1)), .meta meta⟩],
      ?_, ?_⟩
    · rw [← h]
    · intro rest m es hg
      have hfn : st₁.fileNum = st.fileNum + 1 := by rw [← h]
      rw [hfn] at hg
      exact GroupsFor.record meta rest st.fileNum m es hg
  · simp only [OutPacket.push] at h
    have h2 := OutPacket._add_auto_ok jsonLen limit st st₁
      (.blob bytes) (assocSet meta "content_type" (TVal.s "blob")) h
    refine ⟨[⟨ArcName.auto (st.fileNum + 1), .blob bytes⟩,
      ⟨ArcName.record (ArcName.auto (st.fileNum + 1)),
        .meta (assocSet meta "content_type" (TVal.s "blob"))⟩], ?_, ?_⟩
    · rw [h2]
    · intro rest m es hg
      have hfn : st₁.fileNum = st.fileNum + 1 := by rw [h2]
      rw [hfn] at hg
      exact GroupsFor.blob bytes meta rest st.fileNum m es hg
  · rcases rows with _ | ⟨r, rs⟩
    · simp only [OutPacket.push] at h
      injection h with h
      subst h
      refine ⟨[], by simp, ?_⟩
      intro rest m es hg
      have := GroupsFor.records [] meta rest st.fileNum st.fileNum m [] es
        (ChunksFor.nil st.fileNum) hg
      simpa using this
    · simp only [OutPacket.push] at h
      obtain ⟨ces, hce, hch⟩ := OutPacket.pushRecordsLoop_ok_shape
        jsonLen limit (assocSet meta "content_type" (TVal.s "records"))
        rs.length r rs st st₁ le_rfl h
      refine ⟨ces, hce, ?_⟩
      intro rest m es hg
      exact GroupsFor.records (r :: rs) meta rest st.fileNum st₁.fileNum m
        ces es hch hg

/-- A sequence of pushes that raises `DiskFull` has written exactly the
member groups of a truncation of the push list. -/
theorem OutPacket.runPushes_error_shape (jsonLen : TDict → Nat)
    (limit : Int) :
    ∀ (ops : List PushOp) (st st' : OutPacketState),
      OutPacket.runPushes jsonLen limit ops st = Except.error st' →
      ∃ ops' es m, TruncFor ops ops' ∧
        st'.entries = st.entries ++ es ∧
        GroupsFor ops' st.fileNum m es ∧ m ≤ st'.fileNum := by
  intro ops
  induction ops with
  | nil =>
    intro st st' hok
    simp [OutPacket.runPushes] at hok
  | cons op rest ih =>
    intro st st' hok
    simp only [OutPacket.runPushes] at hok
    rcases hpush : OutPacket.push jsonLen limit st op with st₁ | st₁
    · rw [hpush] at hok
      injection hok with hok
      subst hok
      rcases op with meta | ⟨bytes, meta⟩ | ⟨rows, meta⟩
      · rw [OutPacket.push_record_eq] at hpush
        simp at hpush
      · simp only [OutPacket.push] at hpush
        have h2 := OutPacket._add_auto_error jsonLen limit st st₁
          (.blob bytes) (assocSet meta "content_type" (TVal.s "blob")) hpush
        subst h2
        exact ⟨[], [], st.fileNum, ⟨0, Or.inl rfl⟩, by simp,
          GroupsFor.nil _ _ le_rfl, by simp⟩
      · rcases rows with _ | ⟨r, rs⟩
        · simp [OutPacket.push] at hpush
        · simp only [OutPacket.push] at hpush
          obtain ⟨pre, suf, es, n₂, hps, he, hch, hn⟩ :=
            OutPacket.pushRecordsLoop_error_shape jsonLen limit
              (assocSet meta "content_type" (TVal.s "records"))
              rs.length r rs st st₁ le_rfl hpush
          refine ⟨[PushOp.records pre meta], es, n₂,
            ⟨0, Or.inr ⟨r :: rs, meta, pre, suf, rfl, hps, by simp⟩⟩,
            he, ?_, hn⟩
          have := GroupsFor.records pre meta [] st.fileNum n₂ n₂ es []
            hch (GroupsFor.nil n₂ n₂ le_rfl)
          simpa using this
    · rw [hpush] at hok
      obtain ⟨ops'', es'', m'', htr, he'', hg'', hm''⟩ := ih st₁ st' hok
      obtain ⟨ges, hge, hext⟩ :=
        OutPacket.push_ok_shape jsonLen limit op st st₁ hpush
      obtain ⟨k, hk⟩ := htr
      refine ⟨op :: ops'', ges ++ es'', m'', ⟨k + 1, ?_⟩, ?_, ?_, hm''⟩
      · rcases hk with hk | ⟨rows, meta, pre, suf, hget, hps, hk⟩
        · exact Or.inl (by simp [hk])
        · exact Or.inr ⟨rows, meta, pre, suf, by simpa using hget, hps,
            by simp [hk]⟩
      · rw [he'', hge]
        simp [List.append_assoc]
      · exact hext ops'' m'' es'' hg''

theorem Record.get_cons {β : Type} (k' : String) (v' : β)
    (d : List (String × β)) (k : String) :
    Record.get ((k', v') :: d) k =
      if k' = k then some v' else Record.get d k := by
  by_cases h : k' = k
  · simp only [Record.get]
    rw [List.find?_cons_of_pos _ (by simpa using h), if_pos h]
    rfl
  · simp only [Record.get]
    rw [List.find?_cons_of_neg _ (by simpa using h), if_neg h]

/-- A key absent from the updating dictionary is untouched by
`dict.update`. -/
theorem Record.get_dictUpdate_none {β : Type} :
    ∀ (u d : List (String × β)) (k : String),
      Record.get u k = none →
      Record.get (dictUpdate d u) k = Record.get d k := by
  intro u
  induction u with
  | nil =>
    intro d k _
    rfl
  | cons e u' ih =>
    intro d k hk
    obtain ⟨k', v'⟩ := e
    rw [Record.get_cons] at hk
    by_cases h : k' = k
    · rw [if_pos h] at hk
      simp at hk
    · rw [if_neg h] at hk
      have : dictUpdate d ((k', v') :: u') = dictUpdate (assocSet d k' v') u' := by
        simp [dictUpdate]
      rw [this, ih (assocSet d k' v') k hk,
        Record.get_assocSet_ne d k' v' k (fun hh => h hh.symm)]

/-- Every member produced by one records push carries a number in
`(n, n']`, either as its own name or under the `.record` suffix. -/
theorem ChunksFor.chunkNames {meta' : TDict} {rows : List TDict} {n n' : Nat}
    {es : List TarEntry} (h : ChunksFor meta' rows n n' es) :
    n ≤ n' ∧ ∀ e ∈ es, ∃ i, n < i ∧ i ≤ n' ∧
      (e.name = ArcName.auto i ∨ e.name = ArcName.record (ArcName.auto i)) := by
  induction h with
  | nil n => exact ⟨le_rfl, by simp⟩
  | cons c rs n n' es hc h ih =>
    refine ⟨by omega, ?_⟩
    intro e he
    simp only [List.mem_cons] at he
    rcases he with he | he | he
    · exact ⟨n + 1, by omega, by omega, Or.inl (by rw [he])⟩
    · exact ⟨n + 1, by omega, by omega, Or.inr (by rw [he])⟩
    · obtain ⟨i, h1, h2, h3⟩ := ih.2 e he
      exact ⟨i, by omega, h2, h3⟩

theorem GroupsFor.names_le {ops : List PushOp} {n m : Nat}
    {es : List TarEntry} (h : GroupsFor ops n m es) : n ≤ m := by
  induction h with
  | nil n m hle => exact hle
  | record meta rest n m es h ih => omega
  | blob bytes meta rest n m es h ih => omega
  | records rows meta rest n n' m ces es hch h ih =>
    have := hch.chunkNames.1
    omega

/-- Every member produced by a list of pushes carries a number in
`(n, m]`. -/
theorem GroupsFor.groupNames {ops : List PushOp} {n m : Nat}
    {es : List TarEntry} (h : GroupsFor ops n m es) :
    ∀ e ∈ es, ∃ i, n < i ∧ i ≤ m ∧
      (e.name = ArcName.auto i ∨ e.name = ArcName.record (ArcName.auto i)) := by
  induction h with
  | nil n m hle => simp
  | record meta rest n m es h ih =>
    intro e he
    simp only [List.mem_cons] at he
    rcases he with he | he
    · have hnm : n + 1 ≤ m := by
        have := h.names_le
        omega
      exact ⟨n + 1, by omega, hnm, Or.inr (by rw [he])⟩
    · obtain ⟨i, h1, h2, h3⟩ := ih e he
      exact ⟨i, by omega, h2, h3⟩
  | blob bytes meta rest n m es h ih =>
    intro e he
    have hnm : n + 1 ≤ m := by
      have := h.names_le
      omega
    simp only [List.mem_cons] at he
    rcases he with he | he | he
    · exact ⟨n + 1, by omega, hnm, Or.inl (by rw [he])⟩
    · exact ⟨n + 1, by omega, hnm, Or.inr (by rw [he])⟩
    · obtain ⟨i, h1, h2, h3⟩ := ih e he
      exact ⟨i, by omega, h2, h3⟩
  | records rows meta rest n n' m ces es hch h ih =>
    intro e he
    rcases List.mem_append.mp he with he | he
    · obtain ⟨i, h1, h2, h3⟩ := hch.chunkNames.2 e he
      have hnm : n' ≤ m := h.names_le
      exact ⟨i, h1, by omega, h3⟩
    · obtain ⟨i, h1, h2, h3⟩ := ih e he
      have := hch.chunkNames.1
      exact ⟨i, by omega, h2, h3⟩

/-- Within one records push the data member of each auto number is
unique. -/
theorem ChunksFor.chunkAutoUnique {meta' : TDict} {rows : List TDict}
    {n n' : Nat} {es : List TarEntry} (h : ChunksFor meta' rows n n' es) :
    ∀ (i : Nat) (c c' : EContent),
      (⟨ArcName.auto i, c⟩ : TarEntry) ∈ es →
      (⟨ArcName.auto i, c'⟩ : TarEntry) ∈ es → c = c' := by
  induction h with
  | nil n => simp
  | cons ch rs n n' es hc h ih =>
    intro i c c' hm hm'
    simp only [List.mem_cons] at hm hm'
    rcases hm with hm | hm | hm <;> rcases hm' with hm' | hm' | hm'
    · rw [TarEntry.mk.injEq] at hm hm'
      rw [hm.2, hm'.2]
    · exact absurd hm' (by simp)
    · exfalso
      obtain ⟨j, h1, h2, h3⟩ := h.chunkNames.2 _ hm'
      rw [TarEntry.mk.injEq] at hm
      have hi : i = n + 1 := by
        have hh := hm.1
        injection hh with hh
      rcases h3 with h3 | h3
      · injection h3 with h3
        omega
      · exact absurd h3 (by simp)
    · exact absurd hm (by simp)
    · exact absurd hm (by simp)
    · exact absurd hm (by simp)
    · exfalso
      obtain ⟨j, h1, h2, h3⟩ := h.chunkNames.2 _ hm
      rw [TarEntry.mk.injEq] at hm'
      have hi : i = n + 1 := by
        have hh := hm'.1
        injection hh with hh
      rcases h3 with h3 | h3
      · injection h3 with h3
        omega
      · exact absurd h3 (by simp)
    · exact absurd hm' (by simp)
    · exact ih i c c' hm hm'

/-- Across a whole push sequence the data member of each auto number is
unique. -/
theorem GroupsFor.groupAutoUnique {ops : List PushOp} {n m : Nat}
    {es : List TarEntry} (h : GroupsFor ops n m es) :
    ∀ (i : Nat) (c c' : EContent),
      (⟨ArcName.auto i, c⟩ : TarEntry) ∈ es →
      (⟨ArcName.auto i, c'⟩ : TarEntry) ∈ es → c = c' := by
  induction h with
  | nil n m hle => simp
  | record meta rest n m es h ih =>
    intro i c c' hm hm'
    simp only [List.mem_cons] at hm hm'
    rcases hm with hm | hm
    · exact absurd hm (by simp)
    · rcases hm' with hm' | hm'
      · exact absurd hm' (by simp)
      · exact ih i c c' hm hm'
  | blob bytes meta rest n m es h ih =>
    intro i c c' hm hm'
    simp only [List.mem_cons] at hm hm'
    rcases hm with hm | hm | hm <;> rcases hm' with hm' | hm' | hm'
    · rw [TarEntry.mk.injEq] at hm hm'
      rw [hm.2, hm'.2]
    · exact absurd hm' (by simp)
    · exfalso
      obtain ⟨j, h1, h2, h3⟩ := h.groupNames _ hm'
      rw [TarEntry.mk.injEq] at hm
      have hi : i = n + 1 := by
        have hh := hm.1
        injection hh with hh
      rcases h3 with h3 | h3
      · injection h3 with h3
        omega
      · exact absurd h3 (by simp)
    · exact absurd hm (by simp)
    · exact absurd hm (by simp)
    · exact absurd hm (by simp)
    · exfalso
      obtain ⟨j, h1, h2, h3⟩ := h.groupNames _ hm
      rw [TarEntry.mk.injEq] at hm'
      have hi : i = n + 1 := by
        have hh := hm'.1
        injection hh with hh
      rcases h3 with h3 | h3
      · injection h3 with h3
        omega
      · exact absurd h3 (by simp)
    · exact absurd hm' (by simp)
    · exact ih i c c' hm hm'
  | records rows meta rest n n' m ces es hch h ih =>
    intro i c c' hm hm'
    rcases List.mem_append.mp hm with hm0 | hm0 <;>
      rcases List.mem_append.mp hm' with hm0' | hm0'
    · exact hch.chunkAutoUnique i c c' hm0 hm0'
    · exfalso
      obtain ⟨j, hj1, hj2, hj3⟩ := hch.chunkNames.2 _ hm0
      obtain ⟨j', hj1', hj2', hj3'⟩ := h.groupNames _ hm0'
      rcases hj3 with h3 | h3
      · rcases hj3' with h3' | h3'
        · injection h3 with h3
          injection h3' with h3'
          omega
        · exact absurd h3' (by simp)
      · exact absurd h3 (by simp)
    · exfalso
      obtain ⟨j, hj1, hj2, hj3⟩ := hch.chunkNames.2 _ hm0'
      obtain ⟨j', hj1', hj2', hj3'⟩ := h.groupNames _ hm0
      rcases hj3 with h3 | h3
      · rcases hj3' with h3' | h3'
        · injection h3 with h3
          injection h3' with h3'
          omega
        · exact absurd h3' (by simp)
      · exact absurd h3 (by simp)
    · exact ih i c c' hm0 hm0'

/-- `extractfile` by name finds the member when its name determines its
content in the archive. -/
theorem InPacket.findCompanion_eq (l : List TarEntry) (nm : ArcName)
    (c : EContent) (hmem : (⟨nm, c⟩ : TarEntry) ∈ l)
    (huniq : ∀ e ∈ l, e.name = nm → e.content = c) :
    InPacket.findCompanion l nm = some c := by
  unfold InPacket.findCompanion
  rcases hf : l.reverse.find? (fun e => e.name = nm) with _ | e
  · exfalso
    have := List.find?_eq_none.mp hf ⟨nm, c⟩ (by simpa using hmem)
    simp at this
  · have h1 : e.name = nm := by simpa using List.find?_some hf
    have h2 : e ∈ l := by
      have := List.mem_of_find?_eq_some hf
      simpa using this
    rw [hf]
    simp [huniq e h2 h1]

/-- The `header` member appended by `_commit` is found even after any
data members (none of them is named `header`). -/
theorem InPacket.findCompanion_header (es : List TarEntry) (hdr : TDict) :
    InPacket.findCompanion (es ++ [⟨ArcName.header, .meta hdr⟩])
      ArcName.header = some (.meta hdr) := by
  unfold InPacket.findCompanion
  rw [List.reverse_append]
  simp only [List.reverse_cons, List.reverse_nil, List.nil_append,
    List.singleton_append]
  rw [List.find?_cons_of_pos _ (by simp)]
  rfl

theorem InPacket.readLoop_append (header filters : TDict)
    (all : List TarEntry) :
    ∀ (es₁ es₂ : List TarEntry) (l₁ l₂ : List TDict),
      InPacket.readLoop header filters all es₁ = Except.ok l₁ →
      InPacket.readLoop header filters all es₂ = Except.ok l₂ →
      InPacket.readLoop header filters all (es₁ ++ es₂) =
        Except.ok (l₁ ++ l₂) := by
  intro es₁
  induction es₁ with
  | nil =>
    intro es₂ l₁ l₂ h1 h2
    simp only [InPacket.readLoop] at h1
    injection h1 with h1
    subst h1
    simpa using h2
  | cons e es ih =>
    intro es₂ l₁ l₂ h1 h2
    simp only [InPacket.readLoop] at h1
    rcases hre : InPacket.readEntry header filters all e with msg | items
    · rw [hre] at h1
      simp at h1
    · rw [hre] at h1
      rcases hrl : InPacket.readLoop header filters all es with msg | items'
      · rw [hrl] at h1
        simp at h1
      · rw [hrl] at h1
        injection h1 with h1
        subst h1
        have hx := ih es₂ items' l₂ hrl h2
        rw [List.cons_append]
        simp only [InPacket.readLoop, hre, hx]
        simp [List.append_assoc]

/-- Reading the members of one records push yields its rows in order,
each merged (row, then chunk metadata, then packet header). -/
theorem InPacket.readLoop_chunks (header : TDict) (all : List TarEntry)
    (meta' : TDict)
    (hct : Record.get (dictUpdate meta' header) "content_type" =
      some (TVal.s "records")) :
    ∀ (rows : List TDict) (n n' : Nat) (es : List TarEntry),
      ChunksFor meta' rows n n' es →
      (∀ (i : Nat) (c : EContent), (⟨ArcName.auto i, c⟩ : TarEntry) ∈ es →
        InPacket.findCompanion all (ArcName.auto i) = some c) →
      InPacket.readLoop header [] all es =
        Except.ok (rows.map (fun r => dictUpdate r (dictUpdate meta' header))) := by
  intro rows n n' es h
  induction h with
  | nil n =>
    intro _
    simp [InPacket.readLoop]
  | cons c rs n n' es hc h ih =>
    intro hall
    have hcomp := hall (n + 1) (.rows c) (by simp)
    have hx := ih (fun i cc hm =>
      hall i cc (List.mem_cons_of_mem _ (List.mem_cons_of_mem _ hm)))
    simp only [InPacket.readLoop, InPacket.readEntry, hct, hcomp, hx]
    simp [List.map_append]

/-- Reading all members written by a push sequence (packet header merged
over every record) yields the items of `packetItems`, provided neither
the header nor any pushed metadata carries its own `content_type`. -/
theorem InPacket.readLoop_groups (header : TDict) (all : List TarEntry)
    (hhct : Record.get header "content_type" = none) :
    ∀ (ops : List PushOp) (n m : Nat) (es : List TarEntry),
      GroupsFor ops n m es →
      (∀ op ∈ ops, Record.get op.metaOf "content_type" = none) →
      (∀ (i : Nat) (c : EContent), (⟨ArcName.auto i, c⟩ : TarEntry) ∈ es →
        InPacket.findCompanion all (ArcName.auto i) = some c) →
      InPacket.readLoop header [] all es =
        Except.ok (packetItems header ops) := by
  intro ops n m es h
  induction h with
  | nil n m hle =>
    intro _ _
    simp [InPacket.readLoop, packetItems]
  | record meta rest n m es h ih =>
    intro hops hall
    have hmct : Record.get meta "content_type" = none :=
      hops (PushOp.record meta) (by simp)
    have hct : Record.get (dictUpdate meta header) "content_type" = none := by
      rw [Record.get_dictUpdate_none header meta "content_type" hhct]
      exact hmct
    have hx := ih (fun op hop => hops op (List.mem_cons_of_mem _ hop))
      (fun i cc hm => hall i cc (List.mem_cons_of_mem _ hm))
    simp only [InPacket.readLoop, InPacket.readEntry, hct, hx]
    simp [packetItems]
  | blob bytes meta rest n m es h ih =>
    intro hops hall
    have hmct : Record.get meta "content_type" = none :=
      hops (PushOp.blob bytes meta) (by simp)
    have hct : Record.get
        (dictUpdate (assocSet meta "content_type" (TVal.s "blob")) header)
        "content_type" = some (TVal.s "blob") := by
      rw [Record.get_dictUpdate_none header _ "content_type" hhct]
      exact Record.get_assocSet_self meta "content_type" (TVal.s "blob")
    have hcomp := hall (n + 1) (.blob bytes) (by simp)
    have hx := ih (fun op hop => hops op (List.mem_cons_of_mem _ hop))
      (fun i cc hm =>
        hall i cc (List.mem_cons_of_mem _ (List.mem_cons_of_mem _ hm)))
    simp only [InPacket.readLoop, InPacket.readEntry, hct, hcomp, hx]
    simp [packetItems]
  | records rows meta rest n n' m ces es hch h ih =>
    intro hops hall
    have hmct : Record.get meta "content_type" = none :=
      hops (PushOp.records rows meta) (by simp)
    have hct : Record.get
        (dictUpdate (assocSet meta "content_type" (TVal.s "records")) header)
        "content_type" = some (TVal.s "records") := by
      rw [Record.get_dictUpdate_none header _ "content_type" hhct]
      exact Record.get_assocSet_self meta "content_type" (TVal.s "records")
    have h1 := InPacket.readLoop_chunks header all
      (assocSet meta "content_type" (TVal.s "records")) hct rows n n' ces hch
      (fun i cc hm => hall i cc (List.mem_append_left _ hm))
    have h2 := ih (fun op hop => hops op (List.mem_cons_of_mem _ hop))
      (fun i cc hm => hall i cc (List.mem_append_right _ hm))
    have := InPacket.readLoop_append header [] all ces es _ _ h1 h2
    rw [this]
    simp [packetItems]

/-- Reading a packet whose members decompose as `GroupsFor ops` plus the
trailing `header` member yields exactly `packetItems header ops`. -/
theorem InPacket.records_of_groups (header : TDict) (ops : List PushOp)
    (n m : Nat) (es : List TarEntry) (hg : GroupsFor ops n m es)
    (hhct : Record.get header "content_type" = none)
    (hops : ∀ op ∈ ops, Record.get op.metaOf "content_type" = none) :
    InPacket.records []
        (es ++ [⟨ArcName.header, .meta header⟩]) =
      Except.ok (packetItems header ops) := by
  have hall : ∀ (i : Nat) (c : EContent),
      (⟨ArcName.auto i, c⟩ : TarEntry) ∈ es →
      InPacket.findCompanion (es ++ [⟨ArcName.header, .meta header⟩])
        (ArcName.auto i) = some c := by
    intro i c hm
    refine InPacket.findCompanion_eq _ _ _ (List.mem_append_left _ hm) ?_
    intro e he hname
    rcases List.mem_append.mp he with he | he
    · have he2 : (⟨ArcName.auto i, e.content⟩ : TarEntry) ∈ es := by
        rcases e with ⟨nm, cc⟩
        simp only [] at hname
        rw [hname] at he
        exact he
      exact hg.groupAutoUnique i e.content c he2 hm
    · simp only [List.mem_singleton] at he
      rw [he] at hname
      simp at hname
  have hrl := InPacket.readLoop_groups header
    (es ++ [⟨ArcName.header, .meta header⟩]) hhct ops n m es hg hops hall
  have hhdr : InPacket.readLoop header []
      (es ++ [⟨ArcName.header, .meta header⟩])
      [⟨ArcName.header, .meta header⟩] = Except.ok [] := by
    simp [InPacket.readLoop, InPacket.readEntry]
  have := InPacket.readLoop_append header []
    (es ++ [⟨ArcName.header, .meta header⟩]) es
    [⟨ArcName.header, .meta header⟩] _ _ hrl hhdr
  unfold InPacket.records
  rw [InPacket.findCompanion_header]
  show InPacket.readLoop header []
      (es ++ [⟨ArcName.header, .meta header⟩])
      (es ++ [⟨ArcName.header, .meta header⟩]) =
    Except.ok (packetItems header ops)
  rw [this]
  simp

/-- C3 counterexample: pushing the single record `{'n': 1}` into a
packet whose header is `{'src': 'x'}` and reading it back yields the
record WITH the header merged in — not the record that was pushed. -/
theorem C3_counterexample :
    ∃ st stc,
      OutPacket.runPushes (fun _ => 10) (2 * OutPacket.RESERVED_SIZE)
          [PushOp.record [("n", TVal.n 1)]] OutPacket.init =
        Except.ok st ∧
      OutPacket.close (fun _ => 10) st [("src", TVal.s "x")] = some stc ∧
      InPacket.records [] stc.entries =
        Except.ok [[("n", TVal.n 1), ("src", TVal.s "x")]] ∧
      [[("n", TVal.n 1), ("src", TVal.s "x")]] ≠ [[("n", TVal.n 1)]] := by
  refine ⟨_, _, rfl, rfl, rfl, by decide⟩

/-- C3 (amended): writing a list of pushes into a packet and reading it
back with no filters yields the pushed items with the packet header
merged over each record (and `content_type` stamped on blob and
records items), in push order — provided no push raised `DiskFull`, the
packet is nonempty (an empty packet file is deleted on close), and
neither the header nor a pushed metadata dictionary carries its own
`content_type` key. -/
theorem C3_packet_roundtrip (jsonLen : TDict → Nat) (limit : Int)
    (ops : List PushOp) (header : TDict) (st stc : OutPacketState)
    (hrun : OutPacket.runPushes jsonLen limit ops OutPacket.init =
      Except.ok st)
    (hclose : OutPacket.close jsonLen st header = some stc)
    (hhct : Record.get header "content_type" = none)
    (hops : ∀ op ∈ ops, Record.get op.metaOf "content_type" = none) :
    InPacket.records [] stc.entries = Except.ok (packetItems header ops) := by
  obtain ⟨es, he, hg⟩ :=
    OutPacket.runPushes_shape jsonLen limit ops OutPacket.init st hrun
  simp only [OutPacket.init] at he hg
  simp only [List.nil_append] at he
  unfold OutPacket.close at hclose
  by_cases hemp : st.isEmpty
  · rw [if_pos hemp] at hclose
    simp at hclose
  · rw [if_neg hemp] at hclose
    injection hclose with hclose
    rw [← hclose]
    simp only []
    rw [he]
    exact InPacket.records_of_groups header ops 0 st.fileNum es hg hhct hops

theorem C3_witness :
    InPacket.records []
        [⟨ArcName.record (ArcName.auto 1), .meta [("n", TVal.n 1)]⟩,
         ⟨ArcName.header, .meta [("src", TVal.s "x")]⟩] =
      Except.ok
        (packetItems [("src", TVal.s "x")]
          [PushOp.record [("n", TVal.n 1)]]) := by
  have := C3_packet_roundtrip (fun _ => 10) (2 * OutPacket.RESERVED_SIZE)
    [PushOp.record [("n", TVal.n 1)]] [("src", TVal.s "x")]
    { entries := [⟨ArcName.record (ArcName.auto 1), .meta [("n", TVal.n 1)]⟩],
      written := 10, fileNum := 1, isEmpty := false }
    { entries := [⟨ArcName.record (ArcName.auto 1), .meta [("n", TVal.n 1)]⟩,
        ⟨ArcName.header, .meta [("src", TVal.s "x")]⟩],
      written := 20, fileNum := 1, isEmpty := true }
    rfl rfl rfl (by decide)
  exact this

/-- A serialized-size model for the C4 scenario: the two pushed rows
dump to 4 and 8 bytes, any other dictionary (the chunk metadata) to
30. -/
def C4jl : TDict → Nat := fun d =>
  if d = [("i", TVal.n 1)] then 4
  else if d = [("i", TVal.n 2)] then 8
  else 30

/-- The packet state at the `DiskFull` raise of the C4 scenario: the
first chunk (one row) and its force-written metadata are in the archive
and 35 bytes of the 10 bytes available above `_RESERVED_SIZE` are
used. -/
def C4st : OutPacketState :=
  { entries := [⟨ArcName.auto 1, .rows [[("i", TVal.n 1)]]⟩,
      ⟨ArcName.record (ArcName.auto 1),
        .meta [("content_type", TVal.s "records")]⟩],
    written := 35, fileNum := 1, isEmpty := false }

/-- Pushing two records into a packet whose limit leaves 10 bytes above
the reserve raises `DiskFull` on the second outer iteration, after the
first chunk was written. -/
theorem C4run :
    OutPacket.runPushes C4jl (OutPacket.RESERVED_SIZE + 10)
        [PushOp.records [[("i", TVal.n 1)], [("i", TVal.n 2)]] []]
        OutPacket.init =
      Except.error C4st := by
  simp only [OutPacket.runPushes, OutPacket.push]
  rw [OutPacket.pushRecordsLoop_cont C4jl (OutPacket.RESERVED_SIZE + 10)
    (assocSet [] "content_type" (TVal.s "records")) none
    [("i", TVal.n 1)] [[("i", TVal.n 2)]] OutPacket.init C4st 10
    [[("i", TVal.n 1)]] [("i", TVal.n 2)] [] (by rfl) (by rfl) (by simp)
    (by rfl)]
  rw [OutPacket.pushRecordsLoop_full C4jl (OutPacket.RESERVED_SIZE + 10)
    (assocSet [] "content_type" (TVal.s "records")) none
    [("i", TVal.n 2)] [] C4st (by rfl)]

/-- C4 counterexample: when `DiskFull` is raised the packet does NOT
contain only the data of completed pushes (no push completed, yet the
failing push's first chunk and its metadata are in the archive), and
the reserved tail budget HAS been consumed by the force-written
metadata members (the remaining space is below `_RESERVED_SIZE`). -/
theorem C4_counterexample :
    OutPacket.runPushes C4jl (OutPacket.RESERVED_SIZE + 10)
        [PushOp.records [[("i", TVal.n 1)], [("i", TVal.n 2)]] []]
        OutPacket.init =
      Except.error C4st ∧
    C4st.entries ≠ [] ∧
    (OutPacket.RESERVED_SIZE + 10) - C4st.written <
      OutPacket.RESERVED_SIZE :=
  ⟨C4run, by decide, by decide⟩

/-- C4 (amended): if a push raises `DiskFull`, the packet remains
well-formed — `close()` still appends the trailing header (force-written
like all metadata members, it needs no free space) and the packet then
reads back as the items of a TRUNCATION of the push list: the completed
pushes plus, when the failing push was a records push, the complete
chunks it wrote (a prefix of its rows; never a partial chunk).  The
nonempty-packet and `content_type` provisos are as for the roundtrip. -/
theorem C4_diskfull_partial (jsonLen : TDict → Nat) (limit : Int)
    (ops : List PushOp) (header : TDict) (st : OutPacketState)
    (hrun : OutPacket.runPushes jsonLen limit ops OutPacket.init =
      Except.error st)
    (hne : st.isEmpty = false)
    (hhct : Record.get header "content_type" = none)
    (hops : ∀ op ∈ ops, Record.get op.metaOf "content_type" = none) :
    ∃ ops' stc, TruncFor ops ops' ∧
      OutPacket.close jsonLen st header = some stc ∧
      InPacket.records [] stc.entries =
        Except.ok (packetItems header ops') := by
  obtain ⟨ops', es, m, htr, he, hg, hm⟩ :=
    OutPacket.runPushes_error_shape jsonLen limit ops OutPacket.init st hrun
  simp only [OutPacket.init] at he hg
  simp only [List.nil_append] at he
  have hops' : ∀ op ∈ ops', Record.get op.metaOf "content_type" = none := by
    obtain ⟨k, hk⟩ := htr
    rcases hk with hk | ⟨rows, meta, pre, suf, hget, hps, hk⟩
    · intro op hop
      rw [hk] at hop
      exact hops op (List.take_subset k ops hop)
    · intro op hop
      rw [hk] at hop
      rcases List.mem_append.mp hop with hop | hop
      · exact hops op (List.take_subset k ops hop)
      · simp only [List.mem_singleton] at hop
        subst hop
        have hmem : PushOp.records rows meta ∈ ops := List.get?_mem hget
        have := hops _ hmem
        simpa [PushOp.metaOf] using this
  refine ⟨ops',
    { entries := st.entries ++ [⟨ArcName.header, .meta header⟩],
      written := st.written + jsonLen header,
      fileNum := st.fileNum, isEmpty := true }, htr, ?_, ?_⟩
  · simp [OutPacket.close, hne]
  · simp only []
    rw [he]
    exact InPacket.records_of_groups header ops' 0 m es hg hhct hops'

theorem C4_witness :
    ∃ ops' stc,
      TruncFor [PushOp.records [[("i", TVal.n 1)], [("i", TVal.n 2)]] []]
        ops' ∧
      OutPacket.close C4jl C4st [("src", TVal.s "x")] = some stc ∧
      InPacket.records [] stc.entries =
        Except.ok (packetItems [("src", TVal.s "x")] ops') :=
  C4_diskfull_partial C4jl (OutPacket.RESERVED_SIZE + 10)
    [PushOp.records [[("i", TVal.n 1)], [("i", TVal.n 2)]] []]
    [("src", TVal.s "x")] C4st C4run rfl rfl (by decide)

end SugarNetwork

section SanityChecks
open SugarNetwork

example : Sequence.mem [(1, some 3)] 2 = true := by decide
example : Sequence.mem [(1, some 3)] 4 = false := by decide
example : Sequence.mem [(1, none)] 400 = true := by decide
example : Sequence.includeRange [] 3 (some 5) = [(3, some 5)] := by decide
example : Sequence.includeRange [(1, some 10)] 3 (some 5) = [(1, some 10)] := by decide
example : Sequence.includeRange [(1, some 2)] 3 (some 5) = [(1, some 5)] := by decide
example : Sequence.includeRange [(1, some 2)] 4 (some 5) = [(1, some 2), (4, some 5)] := by decide
example : Sequence.includeRange [(4, some 5)] 1 (some 2) = [(1, some 2), (4, some 5)] := by decide
example : Sequence.includeRange [(1, some 2), (5, some 6), (9, some 12)] 3 (some 10) =
    [(1, some 12)] := by decide
example : Sequence.excludeRange [(1, some 10)] 3 5 = [(1, some 2), (6, some 10)] :=
  Sequence._exclude_step_none _ _ _ _ (by decide)
example : Sequence.excludeRange [(1, some 3), (5, some 9)] 2 6 =
    [(1, some 1), (7, some 9)] :=
  (Sequence._exclude_step_some [(1, some 3), (5, some 9)] 2 6
      [(1, some 1), (5, some 9)] 4 (by decide)).trans
    (Sequence._exclude_step_none _ _ _ _ (by decide))
example : Sequence.excludeRange [(1, some 2), (4, some 4)] 1 4 =
    [] :=
  (Sequence._exclude_step_some [(1, some 2), (4, some 4)] 1 4
      [(4, some 4)] 3 (by decide)).trans
    (Sequence._exclude_step_none _ _ _ _ (by decide))
example : Sequence.excludeRange [(1, none)] 1 4 = [(5, none)] :=
  Sequence._exclude_step_none _ _ _ _ (by decide)
example : Sequence.isCanon [(1, some 2), (4, some 4)] = true := by decide
example : Sequence.isCanon [(1, some 2), (3, some 5)] = false := by decide

end SanityChecks
